import Mathlib

/-!
rawdog-comms: framing codec and deadline wrapper.

A shallow embedding of `functions.go`, `structs.go`, `internal/constants/consts.go`
and `internal/messages/errors.go`, together with the parts of the Go standard
library the codec calls (`encoding/binary`, `encoding/base64`, `bytes`, `io.Copy`),
followed by theorems about the embedded functions.

Conventions.
* A byte is a `Fin 256`; `byte v` is Go's truncating conversion `byte(v)`.
* A Go `string` and a Go `[]byte` are both `List Byte`; a slice that may be `nil`
  is an `Option (List Byte)` with `none` for `nil`.
* A `net.Conn` is a `Conn`: the deliveries still to be read, the bytes written so
  far and the behaviour of the coming writes.  Every call on it is explicit state
  passing.
* A runtime panic (index out of range) is the `Run.crash` outcome.
-/

namespace Comms

/-! ## Bytes and machine integers -/

/-- One octet. -/
abbrev Byte := Fin 256

/-- Go conversion `byte(v)` of an unsigned integer: the low eight bits. -/
def byte (v : Nat) : Byte := ⟨v % 256, Nat.mod_lt _ (by decide)⟩

/-- Go conversion `uint16(v)` of a non-negative `int`. -/
def toUint16 (v : Nat) : Nat := v % 2 ^ 16

/-- Go conversion `uint64(v)` of a non-negative `int`. -/
def toUint64 (v : Nat) : Nat := v % 2 ^ 64

/-- Largest value of Go's `int` on a 64-bit platform; no slice or string is longer. -/
def maxInt : Nat := 2 ^ 63 - 1

/-! ## internal/constants/consts.go -/

/-- The constant `NULL_BYTE`, the one-character string "\x00", as its only byte. -/
def NULL_BYTE : Byte := 0

/-- The constant `SZ_DATABUFF`: size of the block used to read data. -/
def SZ_DATABUFF : Nat := 1 <<< 11

/-- The constant `SZ_METADATA_MAX`: maximum size of the metadata block. -/
def SZ_METADATA_MAX : Nat := (1 <<< 16) - 1

/-- The constant `SZ_SIZEBLOCK_DAT`: size of the data size block. -/
def SZ_SIZEBLOCK_DAT : Nat := 1 <<< 3

/-- The constant `SZ_SIZEBLOCK_MD`: size of the metadata size block. -/
def SZ_SIZEBLOCK_MD : Nat := 1 <<< 1

/-! ## Errors (internal/messages/errors.go and the library errors) -/

/-- Errors a connection reports from `Read` and `Write`. -/
inductive ConnErr where
  | eof
  | shortWrite
  | other (code : Nat)
  deriving DecidableEq, Repr

/-- Errors of `context.Context.Err`. -/
inductive CtxErr where
  | canceled
  | deadlineExceeded
  | other (code : Nat)
  deriving DecidableEq, Repr

/-- Every error value the package returns. -/
inductive Err where
  | conn (e : ConnErr)
  | corruptInput (offset : Nat)
  | mdLarge (size max : Nat)
  | readCancelled
  | readTimeout
  | sendCancelled
  | sendTimeout
  | timeoutLtOne
  | ctx (e : CtxErr)
  deriving DecidableEq, Repr

/-- The constant `ERR_READ_CANCELLED`. -/
def ERR_READ_CANCELLED : String := "read has been cancelled"

/-- The constant `ERR_READ_TIMEOUT`. -/
def ERR_READ_TIMEOUT : String := "read transmission timeout"

/-- The constant `ERR_SEND_CANCELLED`. -/
def ERR_SEND_CANCELLED : String := "send has been cancelled"

/-- The constant `ERR_SEND_TIMEOUT`. -/
def ERR_SEND_TIMEOUT : String := "read transmission timeout"

/-- The constant `ERR_TIMEOUT_LT_ONE`. -/
def ERR_TIMEOUT_LT_ONE : String := "timeout must be > 0"

/-- The constant `ERR_MD_LARGE` with its two `%d` verbs filled in. -/
def ERR_MD_LARGE (size max : Nat) : String :=
  "metadata size of " ++ toString size ++ " bytes is too large. max size is "
    ++ toString max ++ " bytes"

/-- Text of the errors the package builds itself with `fmt.Errorf`. -/
def Err.text : Err → Option String
  | .mdLarge size max => some (ERR_MD_LARGE size max)
  | .readCancelled => some ERR_READ_CANCELLED
  | .readTimeout => some ERR_READ_TIMEOUT
  | .sendCancelled => some ERR_SEND_CANCELLED
  | .sendTimeout => some ERR_SEND_TIMEOUT
  | .timeoutLtOne => some ERR_TIMEOUT_LT_ONE
  | _ => none

/-! ## The connection -/

/-- One delivery of the peer: the bytes it makes available to `Read` and the error
that accompanies the last of them. A `Read` never crosses a delivery. -/
structure ReadEvent where
  bytes : List Byte
  err : Option ConnErr
  deriving DecidableEq, Repr

/-- Behaviour of one `Write` call: how many bytes it takes and the error it reports. -/
structure WriteEvent where
  accept : Nat
  err : Option ConnErr
  deriving DecidableEq, Repr

/-- A `net.Conn`: deliveries not yet read (end of stream after the last one), bytes
written so far, and the behaviour of the coming writes (all accepted after the last
scripted one). -/
structure Conn where
  input : List ReadEvent
  output : List Byte
  wscript : List WriteEvent
  deriving DecidableEq, Repr

/-- The call `conn.Read(buf)` with `len(buf) = k`: the bytes `buf[:n]`, the error, and
the connection afterwards. -/
def Conn.Read (c : Conn) (k : Nat) : (List Byte × Option ConnErr) × Conn :=
  match c.input with
  | [] => (([], some .eof), c)
  | ev :: rest =>
    if ev.bytes.length ≤ k then
      ((ev.bytes, ev.err), { c with input := rest })
    else
      ((ev.bytes.take k, none), { c with input := ⟨ev.bytes.drop k, ev.err⟩ :: rest })

/-- The call `conn.Write(p)`: the count, the error, and the connection afterwards. -/
def Conn.Write (c : Conn) (p : List Byte) : (Nat × Option ConnErr) × Conn :=
  match c.wscript with
  | [] => ((p.length, none), { c with output := c.output ++ p })
  | ev :: rest =>
    ((min ev.accept p.length, ev.err),
      { c with output := c.output ++ p.take (min ev.accept p.length), wscript := rest })

/-- Deliveries of an in-memory stream holding `bs`: every read returns as many of the
unread bytes as the buffer takes, and end of stream once none is left. -/
def mem (bs : List Byte) : List ReadEvent :=
  if bs = [] then [] else [⟨bs, none⟩]

/-- An in-memory stream holding the unread bytes `bs`, nothing written to it. -/
def memConn (bs : List Byte) : Conn := ⟨mem bs, [], []⟩

/-- The reading end of an in-memory stream: what was written to `c` is what it holds. -/
def Conn.peer (c : Conn) : Conn := memConn c.output

/-! ## bytes.Buffer -/

/-- A `bytes.Buffer`, by its unread bytes. -/
structure Buffer where
  unread : List Byte
  deriving DecidableEq, Repr

/-- The call `new(bytes.Buffer)`. -/
def Buffer.new : Buffer := ⟨[]⟩

/-- The method `Bytes`: the unread portion, which stays unread. -/
def Buffer.Bytes (b : Buffer) : List Byte := b.unread

/-- The method `String`: the unread portion as a string. -/
def Buffer.String (b : Buffer) : List Byte := b.unread

/-- The method `Len`. -/
def Buffer.Len (b : Buffer) : Nat := b.unread.length

/-- The method `Write`: appends `p`. -/
def Buffer.Write (b : Buffer) (p : List Byte) : Buffer := ⟨b.unread ++ p⟩

/-- The method `WriteTo`, which is what `io.Copy(conn, buf)` runs for a source that is
a `bytes.Buffer`: one `Write` of the whole unread portion; a short count without an
error becomes `io.ErrShortWrite`. Returns the count, the error, the connection and
the buffer afterwards. -/
def Buffer.WriteTo (b : Buffer) (w : Conn) : (Nat × Option ConnErr) × Conn × Buffer :=
  if 0 < b.Len then
    match w.Write b.unread with
    | ((m, e), w1) =>
      let b1 : Buffer := ⟨b.unread.drop m⟩
      match e with
      | some e1 => ((m, some e1), w1, b1)
      | none =>
        if m ≠ b.Len then ((m, some .shortWrite), w1, b1)
        else ((m, none), w1, ⟨[]⟩)
  else ((0, none), w, ⟨[]⟩)

/-- The call `io.Copy(dst, src)` for a `bytes.Buffer` source. -/
def Copy (dst : Conn) (src : Buffer) : (Nat × Option ConnErr) × Conn × Buffer :=
  src.WriteTo dst

/-! ## encoding/binary, big endian -/

/-- The call `binary.BigEndian.PutUint16(b, v)`: the two bytes stored. -/
def PutUint16 (v : Nat) : List Byte := [byte (v >>> 8), byte v]

/-- The call `binary.BigEndian.PutUint64(b, v)`: the eight bytes stored. -/
def PutUint64 (v : Nat) : List Byte :=
  [byte (v >>> 56), byte (v >>> 48), byte (v >>> 40), byte (v >>> 32),
   byte (v >>> 24), byte (v >>> 16), byte (v >>> 8), byte v]

/-- The call `binary.BigEndian.Uint16(b)`; `none` is the index-out-of-range panic of
its bounds check `_ = b[1]`. -/
def Uint16 (b : List Byte) : Option Nat :=
  match b with
  | b0 :: b1 :: _ => some (b1.val ||| b0.val <<< 8)
  | _ => none

/-- The call `binary.BigEndian.Uint64(b)`; `none` is the index-out-of-range panic of
its bounds check `_ = b[7]`. -/
def Uint64 (b : List Byte) : Option Nat :=
  match b with
  | b0 :: b1 :: b2 :: b3 :: b4 :: b5 :: b6 :: b7 :: _ =>
    some (b7.val ||| b6.val <<< 8 ||| b5.val <<< 16 ||| b4.val <<< 24 |||
      b3.val <<< 32 ||| b2.val <<< 40 ||| b1.val <<< 48 ||| b0.val <<< 56)
  | _ => none

/-! ## bytes.Trim with a one-byte cutset -/

/-- The helper `trimRightByte` of package bytes. -/
def trimRightByte (s : List Byte) (c : Byte) : List Byte :=
  (s.reverse.dropWhile (fun x => x == c)).reverse

/-- The helper `trimLeftByte` of package bytes: `nil` when nothing is left. -/
def trimLeftByte (s : List Byte) (c : Byte) : Option (List Byte) :=
  let r := s.dropWhile (fun x => x == c)
  if r = [] then none else some r

/-- The call `bytes.Trim(s, cutset)` for a cutset of the single byte `c`: leading and
trailing occurrences of `c` are cut; the result is `nil` for an empty `s` and when
nothing is left. -/
def Trim (s : List Byte) (c : Byte) : Option (List Byte) :=
  if s = [] then none else trimLeftByte (trimRightByte s c) c

/-! ## encoding/base64, StdEncoding -/

/-- The alphabet of `StdEncoding`, the table `enc.encode`. -/
def encodeStd : List Byte :=
  [65, 66, 67, 68, 69, 70, 71, 72, 73, 74, 75, 76, 77, 78, 79, 80,
   81, 82, 83, 84, 85, 86, 87, 88, 89, 90,
   97, 98, 99, 100, 101, 102, 103, 104, 105, 106, 107, 108, 109, 110, 111, 112,
   113, 114, 115, 116, 117, 118, 119, 120, 121, 122,
   48, 49, 50, 51, 52, 53, 54, 55, 56, 57, 43, 47]

/-- The padding character `StdPadding`, '='. -/
def padChar : Byte := 61

/-- Line feed. -/
def charLF : Byte := 10

/-- Carriage return. -/
def charCR : Byte := 13

/-- The table lookup `enc.encode[v]`. -/
def encodeChar (v : Nat) : Byte := encodeStd.getD v 0

/-- The table lookup `enc.decodeMap[c]`: the index of `c` in the alphabet, 0xff for
every other byte. -/
def decodeMap (c : Byte) : Nat :=
  if encodeStd.indexOf c < 64 then encodeStd.indexOf c else 0xFF

/-- The method `Encode` of `StdEncoding`: whole groups of three bytes, then the
remainder of one or two bytes with padding. -/
def Encode : List Byte → List Byte
  | b0 :: b1 :: b2 :: rest =>
    let val := b0.val <<< 16 ||| b1.val <<< 8 ||| b2.val
    encodeChar (val >>> 18 &&& 0x3F) :: encodeChar (val >>> 12 &&& 0x3F) ::
      encodeChar (val >>> 6 &&& 0x3F) :: encodeChar (val &&& 0x3F) :: Encode rest
  | [b0, b1] =>
    let val := b0.val <<< 16 ||| b1.val <<< 8
    [encodeChar (val >>> 18 &&& 0x3F), encodeChar (val >>> 12 &&& 0x3F),
     encodeChar (val >>> 6 &&& 0x3F), padChar]
  | [b0] =>
    let val := b0.val <<< 16
    [encodeChar (val >>> 18 &&& 0x3F), encodeChar (val >>> 12 &&& 0x3F), padChar, padChar]
  | [] => []

/-- The method `EncodeToString` of `StdEncoding`. -/
def EncodeToString (src : List Byte) : List Byte := Encode src

/-- Skips the line feeds and carriage returns at the front of `src`, counting them
into the index `si`. -/
def skipNewlines : List Byte → Nat → List Byte × Nat
  | [], si => ([], si)
  | c :: rest, si =>
    if c = charLF ∨ c = charCR then skipNewlines rest (si + 1) else (c :: rest, si)

/-- The last step of `decodeQuantum`: four 6-bit values become three bytes, of which
`dlen - 1` are stored. -/
def quantumBytes (dbuf : List Nat) (dlen : Nat) : List Byte :=
  let val := dbuf.getD 0 0 <<< 18 ||| dbuf.getD 1 0 <<< 12 ||| dbuf.getD 2 0 <<< 6 |||
    dbuf.getD 3 0
  [byte (val >>> 16), byte (val >>> 8), byte (val >>> 0)].take (dlen - 1)

/-- What one call of `decodeQuantum` returns: the input left (`src[nsi:]`), the new
index, the bytes stored and the error. -/
structure Quantum where
  rest : List Byte
  nsi : Nat
  out : List Byte
  err : Option Err
  deriving DecidableEq, Repr

/-- The method `decodeQuantum` of `StdEncoding` (padded, not strict), as its loop over
`j` with the values `dbuf[0..j)` collected so far. `src` is the input from index `si`
on and `srcLen` the length of the whole input. -/
def decodeQuantumLoop : List Byte → Nat → Nat → List Nat → Nat → Quantum
  | [], si, j, _, _ =>
    if j = 0 then ⟨[], si, [], none⟩
    else ⟨[], si, [], some (.corruptInput (si - j))⟩
  | c :: rest, si, j, dbuf, srcLen =>
    if decodeMap c ≠ 0xFF then
      if j = 3 then ⟨rest, si + 1, quantumBytes (dbuf ++ [decodeMap c]) 4, none⟩
      else decodeQuantumLoop rest (si + 1) (j + 1) (dbuf ++ [decodeMap c]) srcLen
    else if c = charLF ∨ c = charCR then
      decodeQuantumLoop rest (si + 1) j dbuf srcLen
    else if c ≠ padChar then
      ⟨rest, si + 1, [], some (.corruptInput (si + 1 - 1))⟩
    else if j = 0 ∨ j = 1 then
      ⟨rest, si + 1, [], some (.corruptInput (si + 1 - 1))⟩
    else if j = 2 then
      match skipNewlines rest (si + 1) with
      | ([], si1) => ⟨[], si1, [], some (.corruptInput srcLen)⟩
      | (c1 :: rest1, si1) =>
        if c1 ≠ padChar then ⟨c1 :: rest1, si1, [], some (.corruptInput (si1 - 1))⟩
        else
          match skipNewlines rest1 (si1 + 1) with
          | (rest2, si2) =>
            ⟨rest2, si2, quantumBytes dbuf j,
              if rest2 ≠ [] then some (.corruptInput si2) else none⟩
    else
      match skipNewlines rest (si + 1) with
      | (rest2, si2) =>
        ⟨rest2, si2, quantumBytes dbuf j,
          if rest2 ≠ [] then some (.corruptInput si2) else none⟩

/-- The call `decodeQuantum(dst, src, si)`. -/
def decodeQuantum (src : List Byte) (si srcLen : Nat) : Quantum :=
  decodeQuantumLoop src si 0 [] srcLen

/-- The loop `for si < len(src)` of `Decode`, one `decodeQuantum` per turn (the 8- and
4-character fast paths of the library store what `decodeQuantum` stores). The fuel
bounds the turns; every turn consumes input, so the length of the input is enough. -/
def decodeLoop : Nat → List Byte → Nat → Nat → List Byte → List Byte × Option Err
  | 0, _, _, _, acc => (acc, none)
  | fuel + 1, src, si, srcLen, acc =>
    if src = [] then (acc, none)
    else
      let q := decodeQuantum src si srcLen
      if q.err ≠ none then (acc ++ q.out, q.err)
      else decodeLoop fuel q.rest q.nsi srcLen (acc ++ q.out)

/-- The method `DecodeString` of `StdEncoding`: the decoded bytes `dbuf[:n]` and the
error. -/
def DecodeString (s : List Byte) : List Byte × Option Err :=
  if s.length = 0 then ([], none) else decodeLoop s.length s 0 s.length []

/-! ## structs.go -/

/-- The struct `TcpTransmission`; `Data` is a pointer and `Metadata` a slice, both
possibly `nil`. -/
structure TcpTransmission where
  DatSize : Nat
  Data : Option Buffer
  MdSize : Nat
  Metadata : Option (List Byte)
  deriving DecidableEq, Repr

/-! ## functions.go -/

/-- How a call on a connection ends: it returns `a` and leaves the connection in the
state `conn`, or the goroutine panics. -/
inductive Run (α : Type) where
  | ret (a : α) (conn : Conn)
  | crash (conn : Conn)
  deriving DecidableEq, Repr

/-- The function `readSizes`: the results `(mdSize, dataSize, err)`. -/
def readSizes (conn : Conn) : Run (Nat × Nat × Option Err) :=
  match conn.Read SZ_SIZEBLOCK_MD with
  | ((_, some e), conn1) => .ret (0, 0, some (.conn e)) conn1
  | ((sizeBuffM, none), conn1) =>
    match Uint16 sizeBuffM with
    | none => .crash conn1
    | some mdSize =>
      match conn1.Read SZ_SIZEBLOCK_DAT with
      | ((_, some e), conn2) => .ret (0, 0, some (.conn e)) conn2
      | ((sizeBuffD, none), conn2) =>
        match Uint64 sizeBuffD with
        | none => .crash conn2
        | some dataSize => .ret (mdSize, dataSize, none) conn2

/-- The payload loop of `RecvTransmission`, `for i = 0; i < iterations; i++`, by the
number of turns left: end of stream breaks the loop, any other error skips the
turn, a successful read is appended to `payloadBuff`. -/
def readPayload : Nat → Conn → Buffer → Buffer × Conn
  | 0, conn, payloadBuff => (payloadBuff, conn)
  | left + 1, conn, payloadBuff =>
    match conn.Read SZ_DATABUFF with
    | ((_, some e), conn1) =>
      if e = .eof then (payloadBuff, conn1) else readPayload left conn1 payloadBuff
    | ((chunk, none), conn1) => readPayload left conn1 (payloadBuff.Write chunk)

/-- The number of turns `RecvTransmission` computes for the payload loop. -/
def iterations (datSize : Nat) : Nat :=
  if datSize % SZ_DATABUFF > 0 then (datSize / SZ_DATABUFF + 1) % 2 ^ 64
  else datSize / SZ_DATABUFF

/-- The function `RecvTransmission`: the results `(transmission, err)`. -/
def RecvTransmission (conn : Conn) : Run (Option TcpTransmission × Option Err) :=
  match readSizes conn with
  | .crash conn1 => .crash conn1
  | .ret (_, _, some e) conn1 => .ret (none, some e) conn1
  | .ret (mdSize, datSize, none) conn1 =>
    let t0 : TcpTransmission := ⟨datSize, none, mdSize, none⟩
    let md : Run (Option (List Byte) × Option Err) :=
      if mdSize > 0 then
        match conn1.Read mdSize with
        | ((_, some e), conn2) => .ret (none, some (.conn e)) conn2
        | ((mdBuff, none), conn2) => .ret (Trim mdBuff NULL_BYTE, none) conn2
      else .ret (some [], none) conn1
    match md with
    | .crash conn2 => .crash conn2
    | .ret (_, some e) conn2 => .ret (none, some e) conn2
    | .ret (metadata, none) conn2 =>
      let t1 : TcpTransmission := { t0 with Metadata := metadata, Data := some Buffer.new }
      if t1.DatSize = 0 then .ret (some t1, none) conn2
      else
        match readPayload (iterations t1.DatSize) conn2 Buffer.new with
        | (payloadBuff, conn3) =>
          match DecodeString payloadBuff.String with
          | (_, some e) => .ret (none, some e) conn3
          | (decoded, none) =>
            .ret (some { t1 with Data := some (Buffer.new.Write decoded) }, none) conn3

/-- The function `RecvTransmissionCtx`. `done` is what the `select` finds on the
channel `ctx.Done()`: `none` while the context is live, otherwise `ctx.Err()`. -/
def RecvTransmissionCtx (timeout : Int) (done : Option CtxErr) (conn : Conn) :
    Run (Option TcpTransmission × Option Err) :=
  if timeout < 1 then .ret (none, some .timeoutLtOne) conn
  else
    match done with
    | some .canceled => .ret (none, some .readCancelled) conn
    | some .deadlineExceeded => .ret (none, some .readTimeout) conn
    | some e => .ret (none, some (.ctx e)) conn
    | none => RecvTransmission conn

/-- What `SendTransmission` leaves behind: the error returned, the connection and the
caller's data buffer after the call. -/
structure Sent where
  err : Option Err
  conn : Conn
  data : Buffer
  deriving DecidableEq, Repr

/-- The function `SendTransmission`. -/
def SendTransmission (conn : Conn) (data : Buffer) (metadata : List Byte) : Sent :=
  let lenMd := metadata.length
  if lenMd > SZ_METADATA_MAX then ⟨some (.mdLarge lenMd SZ_METADATA_MAX), conn, data⟩
  else
    let dataEnc := EncodeToString data.Bytes
    let lenData := dataEnc.length
    let lenBuffM := PutUint16 (toUint16 lenMd)
    let mdBuff := metadata
    let lenBuffD := PutUint64 (toUint64 lenData)
    let dataBuff := (((Buffer.new.Write lenBuffM).Write lenBuffD).Write mdBuff).Write dataEnc
    match Copy conn dataBuff with
    | ((_, some e), conn1, _) => ⟨some (.conn e), conn1, data⟩
    | ((_, none), conn1, _) => ⟨none, conn1, data⟩

/-- The function `SendTransmissionCtx`, with `done` as in `RecvTransmissionCtx`. -/
def SendTransmissionCtx (timeout : Int) (done : Option CtxErr) (conn : Conn) (data : Buffer)
    (metadata : List Byte) : Sent :=
  if timeout < 1 then ⟨some .timeoutLtOne, conn, data⟩
  else
    match done with
    | some .canceled => ⟨some .sendCancelled, conn, data⟩
    | some .deadlineExceeded => ⟨some .sendTimeout, conn, data⟩
    | some e => ⟨some (.ctx e), conn, data⟩
    | none => SendTransmission conn data metadata

/-! ## The wire format, in the words of the specification -/

/-- The `w`-byte big-endian unsigned encoding of `n`: most significant byte first. -/
def bigEndian : Nat → Nat → List Byte
  | 0, _ => []
  | w + 1, n => bigEndian w (n / 256) ++ [byte n]

/-- A character of the base64 alphabet of RFC 4648: `A`-`Z`, `a`-`z`, `0`-`9`, `+`, `/`. -/
def isAlphabet (c : Byte) : Bool :=
  (65 ≤ c.val && c.val ≤ 90) || (97 ≤ c.val && c.val ≤ 122) || (48 ≤ c.val && c.val ≤ 57)
    || c.val == 43 || c.val == 47

/-- Standard padded base64 text: groups of four characters of the alphabet, of which
the last group may end in one or in two padding characters. -/
def validStd : List Byte → Bool
  | [] => true
  | [a, b, c, d] =>
    isAlphabet a && isAlphabet b &&
      ((isAlphabet c && (isAlphabet d || d == padChar)) || (c == padChar && d == padChar))
  | a :: b :: c :: d :: rest =>
    isAlphabet a && isAlphabet b && isAlphabet c && isAlphabet d && validStd rest
  | _ => false

/-- The text without its carriage returns and line feeds. -/
def stripCRLF : List Byte → List Byte
  | [] => []
  | c :: rest => if c = charLF ∨ c = charCR then stripCRLF rest else c :: stripCRLF rest

/-- The metadata `RecvTransmission` stores for the metadata block `md` it has read:
`bytes.Trim` of the block when the declared length is positive, an empty slice
otherwise. -/
def trimmed (md : List Byte) : Option (List Byte) :=
  if md.length > 0 then Trim md NULL_BYTE else some []

/-- What one `decodeQuantum` without error has read, entered at position `j` of the
quantum: the rest of a full group, or nothing at all, or the rest of a last group
with its padding; `s` is the input without its line breaks. -/
def QuantumRead (j : Nat) (s : List Byte) (q : Quantum) : Prop :=
  (∃ pre, s = pre ++ stripCRLF q.rest ∧ pre.length = 4 - j ∧ ∀ c ∈ pre, isAlphabet c = true) ∨
  (q.rest = [] ∧ j = 0 ∧ s = []) ∨
  (q.rest = [] ∧ j ≤ 2 ∧
    ∃ pre, s = pre ++ [padChar, padChar] ∧ pre.length = 2 - j ∧ ∀ c ∈ pre, isAlphabet c = true) ∨
  (q.rest = [] ∧ j ≤ 3 ∧
    ∃ pre, s = pre ++ [padChar] ∧ pre.length = 3 - j ∧ ∀ c ∈ pre, isAlphabet c = true)

/-- The connection as the metadata step of `RecvTransmission` leaves it: after the one
read of `mdSize` bytes when `mdSize > 0`, untouched otherwise. -/
def afterMetadata (conn : Conn) (mdSize : Nat) : Conn :=
  if mdSize > 0 then (conn.Read mdSize).2 else conn

/-- The metadata the metadata step of `RecvTransmission` stores when its read reports no
error: `bytes.Trim` of the bytes read when `mdSize > 0`, an empty slice otherwise. -/
def readMetadata (conn : Conn) (mdSize : Nat) : Option (List Byte) :=
  if mdSize > 0 then Trim (conn.Read mdSize).1.1 NULL_BYTE else some []

/-- The quotient `n / d` rounded up. -/
def ceilDiv (n d : Nat) : Nat := (n + d - 1) / d

/-- The bytes of a slice that may be `nil`: a `nil` slice has none. -/
def sliceBytes (s : Option (List Byte)) : List Byte := s.getD []

/-- The payload loop of `RecvTransmission` once more, counting the calls of
`conn.Read` it makes; the buffer and the connection are those of `readPayload`. -/
def readPayloadReads : Nat → Conn → Buffer → Nat × Buffer × Conn
  | 0, conn, payloadBuff => (0, payloadBuff, conn)
  | left + 1, conn, payloadBuff =>
    match conn.Read SZ_DATABUFF with
    | ((_, some e), conn1) =>
      if e = .eof then (1, payloadBuff, conn1)
      else
        match readPayloadReads left conn1 payloadBuff with
        | (n, b, c) => (n + 1, b, c)
    | ((chunk, none), conn1) =>
      match readPayloadReads left conn1 (payloadBuff.Write chunk) with
      | (n, b, c) => (n + 1, b, c)

/-! ## Lemmas: constants and machine integers -/

theorem SZ_DATABUFF_eq : SZ_DATABUFF = 2048 := by decide

theorem SZ_METADATA_MAX_eq : SZ_METADATA_MAX = 65535 := by decide

theorem SZ_SIZEBLOCK_DAT_eq : SZ_SIZEBLOCK_DAT = 8 := by decide

theorem SZ_SIZEBLOCK_MD_eq : SZ_SIZEBLOCK_MD = 2 := by decide

theorem byte_val (v : Nat) : (byte v).val = v % 256 := rfl

theorem byte_of_val (b : Byte) : byte b.val = b := by
  apply Fin.ext
  simp [byte_val, Nat.mod_eq_of_lt b.isLt]

/-- A bitwise or of a multiple of `2 ^ k` with a value below `2 ^ k` is their sum. -/
theorem lor_eq_add (k : Nat) {z x : Nat} (hx : x < 2 ^ k) (hz : 2 ^ k ∣ z) :
    z ||| x = z + x := by
  obtain ⟨a, rfl⟩ := hz
  exact (Nat.mul_add_lt_is_or hx a).symm

theorem and_63 (x : Nat) : x &&& 0x3F = x % 64 := by
  rw [show (0x3F : Nat) = 2 ^ 6 - 1 by norm_num, Nat.and_pow_two_sub_one_eq_mod]

theorem Uint16_PutUint16 (v : Nat) (rest : List Byte) (h : v < 2 ^ 16) :
    Uint16 (PutUint16 v ++ rest) = some v := by
  simp only [PutUint16, Uint16, List.cons_append, byte_val, Nat.shiftLeft_eq,
    Nat.shiftRight_eq_div_pow, Option.some.injEq]
  rw [Nat.lor_comm, lor_eq_add 8 (by omega) (by omega)]
  omega

theorem Uint64_PutUint64 (v : Nat) (rest : List Byte) (h : v < 2 ^ 64) :
    Uint64 (PutUint64 v ++ rest) = some v := by
  simp only [PutUint64, Uint64, List.cons_append, byte_val, Nat.shiftLeft_eq,
    Nat.shiftRight_eq_div_pow, Option.some.injEq]
  have e1 : v % 256 ||| v / 2 ^ 8 % 256 * 2 ^ 8 = v % 2 ^ 16 := by
    rw [Nat.lor_comm, lor_eq_add 8 (by omega) (by omega)]; omega
  have e2 : v % 2 ^ 16 ||| v / 2 ^ 16 % 256 * 2 ^ 16 = v % 2 ^ 24 := by
    rw [Nat.lor_comm, lor_eq_add 16 (by omega) (by omega)]; omega
  have e3 : v % 2 ^ 24 ||| v / 2 ^ 24 % 256 * 2 ^ 24 = v % 2 ^ 32 := by
    rw [Nat.lor_comm, lor_eq_add 24 (by omega) (by omega)]; omega
  have e4 : v % 2 ^ 32 ||| v / 2 ^ 32 % 256 * 2 ^ 32 = v % 2 ^ 40 := by
    rw [Nat.lor_comm, lor_eq_add 32 (by omega) (by omega)]; omega
  have e5 : v % 2 ^ 40 ||| v / 2 ^ 40 % 256 * 2 ^ 40 = v % 2 ^ 48 := by
    rw [Nat.lor_comm, lor_eq_add 40 (by omega) (by omega)]; omega
  have e6 : v % 2 ^ 48 ||| v / 2 ^ 48 % 256 * 2 ^ 48 = v % 2 ^ 56 := by
    rw [Nat.lor_comm, lor_eq_add 48 (by omega) (by omega)]; omega
  have e7 : v % 2 ^ 56 ||| v / 2 ^ 56 % 256 * 2 ^ 56 = v := by
    rw [Nat.lor_comm, lor_eq_add 56 (by omega) (by omega)]; omega
  rw [e1, e2, e3, e4, e5, e6, e7]

theorem PutUint16_length (v : Nat) : (PutUint16 v).length = 2 := rfl

theorem PutUint64_length (v : Nat) : (PutUint64 v).length = 8 := rfl

/-! ## Lemmas: reading an in-memory stream -/

theorem mem_nil : mem [] = [] := rfl

theorem mem_of_ne_nil {bs : List Byte} (h : bs ≠ []) : mem bs = [⟨bs, none⟩] := by
  simp [mem, h]

/-- Reading `a.length` bytes from an in-memory stream holding `a ++ b` returns `a` and
leaves `b`. -/
theorem Read_mem_append (a b : List Byte) (out : List Byte) (ws : List WriteEvent)
    (ha : a ≠ []) :
    Conn.Read ⟨mem (a ++ b), out, ws⟩ a.length = ((a, none), ⟨mem b, out, ws⟩) := by
  have hab : a ++ b ≠ [] := by simp [ha]
  rw [mem_of_ne_nil hab]
  by_cases hb : b = []
  · subst hb
    simp [Conn.Read, mem_nil]
  · have hlen : 0 < b.length := List.length_pos.mpr hb
    simp [Conn.Read, mem_of_ne_nil hb]
    exact hb

/-- Reading from an in-memory stream holding fewer bytes than asked for returns them
all and leaves the stream at its end. -/
theorem Read_mem_short (a : List Byte) (out : List Byte) (ws : List WriteEvent) (k : Nat)
    (ha : a ≠ []) (hk : a.length ≤ k) :
    Conn.Read ⟨mem a, out, ws⟩ k = ((a, none), ⟨[], out, ws⟩) := by
  rw [mem_of_ne_nil ha]
  simp [Conn.Read, hk]

theorem Read_end (out : List Byte) (ws : List WriteEvent) (k : Nat) :
    Conn.Read ⟨[], out, ws⟩ k = (([], some .eof), ⟨[], out, ws⟩) := rfl

theorem readPayload_end (n : Nat) (out : List Byte) (ws : List WriteEvent) (acc : Buffer) :
    readPayload n ⟨[], out, ws⟩ acc = (acc, ⟨[], out, ws⟩) := by
  cases n with
  | zero => rfl
  | succ n => simp [readPayload, Read_end]

/-- The payload loop on an in-memory stream that holds no more than the loop asks
for: everything held is appended and the stream is left at its end. -/
theorem readPayload_mem (n : Nat) (bs : List Byte) (out : List Byte) (ws : List WriteEvent)
    (acc : Buffer) (h : bs.length ≤ n * 2048) :
    readPayload n ⟨mem bs, out, ws⟩ acc = (⟨acc.unread ++ bs⟩, ⟨[], out, ws⟩) := by
  induction n generalizing bs acc with
  | zero =>
    have hb : bs = [] := List.length_eq_zero.mp (by omega)
    subst hb
    simp [readPayload, mem_nil]
  | succ n ih =>
    by_cases hb : bs = []
    · subst hb
      simp [mem_nil, readPayload_end]
    · by_cases hk : bs.length ≤ 2048
      · simp [readPayload, SZ_DATABUFF_eq, Read_mem_short bs out ws 2048 hb hk,
          readPayload_end, Buffer.Write]
      · have hsplit : bs = bs.take 2048 ++ bs.drop 2048 := (List.take_append_drop _ _).symm
        have hlen : (bs.take 2048).length = 2048 := by
          rw [List.length_take]; omega
        have hne : bs.take 2048 ≠ [] := by
          intro h0; rw [h0] at hlen; simp at hlen
        have hr := Read_mem_append (bs.take 2048) (bs.drop 2048) out ws hne
        rw [← hsplit, hlen] at hr
        have hd : (bs.drop 2048).length ≤ n * 2048 := by
          rw [List.length_drop]; omega
        simp only [readPayload, SZ_DATABUFF_eq, hr, Buffer.Write]
        rw [ih (bs.drop 2048) _ hd]
        simp [List.append_assoc]

/-! ## Lemmas: base64 -/

theorem decodeMap_encodeChar (v : Nat) (h : v < 64) : decodeMap (encodeChar v) = v := by
  have key : ∀ w : Fin 64, decodeMap (encodeChar w.val) = w.val := by decide
  exact key ⟨v, h⟩

theorem decodeMap_padChar : decodeMap padChar = 0xFF := by decide

theorem decodeMap_lt_or (c : Byte) : decodeMap c < 64 ∨ decodeMap c = 0xFF := by
  unfold decodeMap
  split
  · left; assumption
  · right; rfl

theorem dq_step (c : Byte) (rest : List Byte) (si j : Nat) (dbuf : List Nat) (L : Nat)
    (h : decodeMap c ≠ 0xFF) (hj : j ≠ 3) :
    decodeQuantumLoop (c :: rest) si j dbuf L =
      decodeQuantumLoop rest (si + 1) (j + 1) (dbuf ++ [decodeMap c]) L := by
  simp [decodeQuantumLoop, h, hj]

theorem dq_last (c : Byte) (rest : List Byte) (si : Nat) (dbuf : List Nat) (L : Nat)
    (h : decodeMap c ≠ 0xFF) :
    decodeQuantumLoop (c :: rest) si 3 dbuf L =
      ⟨rest, si + 1, quantumBytes (dbuf ++ [decodeMap c]) 4, none⟩ := by
  simp [decodeQuantumLoop, h]

/-- The bytes `decodeQuantum` stores, when the collected 6-bit values are those of the
24-bit value `v`. -/
theorem quantumBytes_val (dbuf : List Nat) (dlen v : Nat) (hv : v < 2 ^ 24)
    (h0 : dbuf.getD 0 0 = v / 2 ^ 18 % 64) (h1 : dbuf.getD 1 0 = v / 2 ^ 12 % 64)
    (h2 : dbuf.getD 2 0 = v / 2 ^ 6 % 64) (h3 : dbuf.getD 3 0 = v % 64) :
    quantumBytes dbuf dlen = [byte (v / 65536), byte (v / 256), byte v].take (dlen - 1) := by
  unfold quantumBytes
  simp only [h0, h1, h2, h3, Nat.shiftLeft_eq, Nat.shiftRight_eq_div_pow]
  have a1 : v / 2 ^ 18 % 64 * 2 ^ 18 ||| v / 2 ^ 12 % 64 * 2 ^ 12
      = v / 2 ^ 18 % 64 * 2 ^ 18 + v / 2 ^ 12 % 64 * 2 ^ 12 :=
    lor_eq_add 18 (by omega) (by omega)
  have a2 : v / 2 ^ 18 % 64 * 2 ^ 18 + v / 2 ^ 12 % 64 * 2 ^ 12 ||| v / 2 ^ 6 % 64 * 2 ^ 6
      = v / 2 ^ 18 % 64 * 2 ^ 18 + v / 2 ^ 12 % 64 * 2 ^ 12 + v / 2 ^ 6 % 64 * 2 ^ 6 :=
    lor_eq_add 12 (by omega) (by omega)
  have a3 : v / 2 ^ 18 % 64 * 2 ^ 18 + v / 2 ^ 12 % 64 * 2 ^ 12 + v / 2 ^ 6 % 64 * 2 ^ 6
      ||| v % 64 = v := by
    rw [lor_eq_add 6 (by omega) (by omega)]; omega
  rw [a1, a2, a3]
  simp

theorem val3_eq (b0 b1 b2 : Byte) :
    b0.val <<< 16 ||| b1.val <<< 8 ||| b2.val = b0.val * 65536 + b1.val * 256 + b2.val := by
  have h0 := b0.isLt
  have h1 := b1.isLt
  have h2 := b2.isLt
  simp only [Nat.shiftLeft_eq]
  have a1 : b0.val * 2 ^ 16 ||| b1.val * 2 ^ 8 = b0.val * 2 ^ 16 + b1.val * 2 ^ 8 :=
    lor_eq_add 16 (by omega) (by omega)
  rw [a1, lor_eq_add 8 (by omega) (by omega)]
  omega

theorem val2_eq (b0 b1 : Byte) :
    b0.val <<< 16 ||| b1.val <<< 8 = b0.val * 65536 + b1.val * 256 := by
  have h0 := b0.isLt
  have h1 := b1.isLt
  simp only [Nat.shiftLeft_eq]
  exact lor_eq_add 16 (by omega) (by omega)

theorem byte_eq_of_val (v : Nat) (b : Byte) (h : v % 256 = b.val) : byte v = b :=
  Fin.ext h

theorem Encode_eq_nil (p : List Byte) : Encode p = [] ↔ p = [] := by
  match p with
  | [] => simp [Encode]
  | [_] => simp [Encode]
  | [_, _] => simp [Encode]
  | _ :: _ :: _ :: _ => simp [Encode]

/-- Decoding the encoding: the loop of `Decode`, run on `Encode p` with enough fuel,
appends exactly `p` and reports no error. -/
theorem decodeLoop_Encode (p : List Byte) :
    ∀ (fuel si L : Nat) (acc : List Byte), (Encode p).length ≤ fuel →
      decodeLoop fuel (Encode p) si L acc = (acc ++ p, none) := by
  induction p using Encode.induct with
  | case1 b0 b1 b2 rest ih =>
    intro fuel si L acc hf
    have h0 := b0.isLt
    have h1 := b1.isLt
    have h2 := b2.isLt
    simp only [Encode, val3_eq, and_63, Nat.shiftRight_eq_div_pow] at hf ⊢
    obtain ⟨fuel, rfl⟩ : ∃ f, fuel = f + 1 := ⟨fuel - 1, by simp at hf; omega⟩
    set v := b0.val * 65536 + b1.val * 256 + b2.val with hv
    have m0 := decodeMap_encodeChar (v / 2 ^ 18 % 64) (by omega)
    have m1 := decodeMap_encodeChar (v / 2 ^ 12 % 64) (by omega)
    have m2 := decodeMap_encodeChar (v / 2 ^ 6 % 64) (by omega)
    have m3 := decodeMap_encodeChar (v % 64) (by omega)
    have hq : decodeQuantum (encodeChar (v / 2 ^ 18 % 64) :: encodeChar (v / 2 ^ 12 % 64) ::
        encodeChar (v / 2 ^ 6 % 64) :: encodeChar (v % 64) :: Encode rest) si L
        = ⟨Encode rest, si + 1 + 1 + 1 + 1, [b0, b1, b2], none⟩ := by
      unfold decodeQuantum
      rw [dq_step _ _ _ _ _ _ (by omega) (by decide), dq_step _ _ _ _ _ _ (by omega) (by decide),
        dq_step _ _ _ _ _ _ (by omega) (by decide), dq_last _ _ _ _ _ (by omega)]
      rw [m0, m1, m2, m3]
      rw [quantumBytes_val _ 4 v (by omega) (by simp) (by simp) (by simp) (by simp)]
      simp only [Nat.add_one_sub_one, List.take_succ_cons, List.take_zero, Quantum.mk.injEq,
        true_and, and_true]
      rw [byte_eq_of_val _ b0 (by omega), byte_eq_of_val _ b1 (by omega),
        byte_eq_of_val _ b2 (by omega)]
    simp only [decodeLoop, hq]
    simp only [reduceCtorEq, not_false_eq_true, ne_eq, not_true_eq_false, ↓reduceIte]
    rw [ih fuel _ L _ (by simp at hf; omega)]
    simp
  | case2 b0 b1 =>
    intro fuel si L acc hf
    have h0 := b0.isLt
    have h1 := b1.isLt
    simp only [Encode, val2_eq, and_63, Nat.shiftRight_eq_div_pow] at hf ⊢
    obtain ⟨fuel, rfl⟩ : ∃ f, fuel = f + 1 := ⟨fuel - 1, by simp at hf; omega⟩
    set v := b0.val * 65536 + b1.val * 256 with hv
    have m0 := decodeMap_encodeChar (v / 2 ^ 18 % 64) (by omega)
    have m1 := decodeMap_encodeChar (v / 2 ^ 12 % 64) (by omega)
    have m2 := decodeMap_encodeChar (v / 2 ^ 6 % 64) (by omega)
    have hq : decodeQuantum [encodeChar (v / 2 ^ 18 % 64), encodeChar (v / 2 ^ 12 % 64),
        encodeChar (v / 2 ^ 6 % 64), padChar] si L
        = ⟨[], si + 1 + 1 + 1 + 1, [b0, b1], none⟩ := by
      unfold decodeQuantum
      rw [dq_step _ _ _ _ _ _ (by omega) (by decide), dq_step _ _ _ _ _ _ (by omega) (by decide),
        dq_step _ _ _ _ _ _ (by omega) (by decide)]
      rw [m0, m1, m2]
      simp only [decodeQuantumLoop, decodeMap_padChar, skipNewlines]
      rw [quantumBytes_val _ 3 v (by omega) (by simp) (by simp) (by simp) (by simp; omega)]
      have e0 := byte_eq_of_val (v / 65536) b0 (by omega)
      have e1 := byte_eq_of_val (v / 256) b1 (by omega)
      simp [e0, e1, padChar, charLF, charCR]
    simp only [decodeLoop, hq]
    simp only [reduceCtorEq, not_false_eq_true, ne_eq, not_true_eq_false, ↓reduceIte]
    cases fuel <;> simp [decodeLoop]
  | case3 b0 =>
    intro fuel si L acc hf
    have h0 := b0.isLt
    simp only [Encode, Nat.shiftLeft_eq, and_63, Nat.shiftRight_eq_div_pow] at hf ⊢
    obtain ⟨fuel, rfl⟩ : ∃ f, fuel = f + 1 := ⟨fuel - 1, by simp at hf; omega⟩
    set v := b0.val * 2 ^ 16 with hv
    have m0 := decodeMap_encodeChar (v / 2 ^ 18 % 64) (by omega)
    have m1 := decodeMap_encodeChar (v / 2 ^ 12 % 64) (by omega)
    have hq : decodeQuantum [encodeChar (v / 2 ^ 18 % 64), encodeChar (v / 2 ^ 12 % 64),
        padChar, padChar] si L
        = ⟨[], si + 1 + 1 + 1 + 1, [b0], none⟩ := by
      unfold decodeQuantum
      rw [dq_step _ _ _ _ _ _ (by omega) (by decide), dq_step _ _ _ _ _ _ (by omega) (by decide)]
      rw [m0, m1]
      simp only [decodeQuantumLoop, decodeMap_padChar, skipNewlines]
      rw [quantumBytes_val _ 2 v (by omega) (by simp) (by simp) (by simp; omega) (by simp; omega)]
      have e0 := byte_eq_of_val (v / 65536) b0 (by omega)
      simp [e0, padChar, charLF, charCR, skipNewlines]
    simp only [decodeLoop, hq]
    simp only [reduceCtorEq, not_false_eq_true, ne_eq, not_true_eq_false, ↓reduceIte]
    cases fuel <;> simp [decodeLoop]
  | case4 =>
    intro fuel si L acc _
    cases fuel <;> simp [Encode, decodeLoop]

/-- Base64 round trip: `DecodeString` of `EncodeToString p` is `p`, without error. -/
theorem DecodeString_EncodeToString (p : List Byte) :
    DecodeString (EncodeToString p) = (p, none) := by
  unfold DecodeString EncodeToString
  split
  · rename_i h
    have hp : p = [] := (Encode_eq_nil p).mp (List.length_eq_zero.mp h)
    simp [hp]
  · rw [decodeLoop_Encode p _ 0 _ [] (le_refl _)]
    simp

/-! ## Lemmas: receiving from an in-memory stream -/

theorem readSizes_mem (n L : Nat) (rest out : List Byte) (ws : List WriteEvent)
    (hn : n < 2 ^ 16) (hL : L < 2 ^ 64) :
    readSizes ⟨mem (PutUint16 n ++ (PutUint64 L ++ rest)), out, ws⟩ =
      .ret (n, L, none) ⟨mem rest, out, ws⟩ := by
  have r1 := Read_mem_append (PutUint16 n) (PutUint64 L ++ rest) out ws (by simp [PutUint16])
  have r2 := Read_mem_append (PutUint64 L) rest out ws (by simp [PutUint64])
  rw [PutUint16_length] at r1
  rw [PutUint64_length] at r2
  have u1 := Uint16_PutUint16 n [] hn
  have u2 := Uint64_PutUint64 L [] hL
  rw [List.append_nil] at u1 u2
  simp only [readSizes, SZ_SIZEBLOCK_MD_eq, SZ_SIZEBLOCK_DAT_eq, r1, r2, u1, u2]

theorem iterations_ge (L : Nat) (hL : L < 2 ^ 64) : L ≤ iterations L * 2048 := by
  unfold iterations
  rw [SZ_DATABUFF_eq]
  split
  · rw [Nat.mod_eq_of_lt (by omega)]
    omega
  · omega

/-- Receiving from an in-memory stream that holds a header declaring a zero payload
length, the metadata block and then `tail`: the payload is empty and `tail` is left. -/
theorem Recv_mem_zero (md tail out : List Byte) (ws : List WriteEvent)
    (hn : md.length < 2 ^ 16) :
    RecvTransmission ⟨mem (PutUint16 md.length ++ (PutUint64 0 ++ (md ++ tail))), out, ws⟩ =
      .ret (some ⟨0, some ⟨[]⟩, md.length, trimmed md⟩, none) ⟨mem tail, out, ws⟩ := by
  unfold RecvTransmission
  rw [readSizes_mem md.length 0 (md ++ tail) out ws hn (by norm_num)]
  by_cases hmd : md = []
  · subst hmd
    simp [trimmed, Buffer.new]
  · have hpos : 0 < md.length := List.length_pos.mpr hmd
    have r := Read_mem_append md tail out ws hmd
    simp [trimmed, Buffer.new, hpos, r]

/-- Receiving from an in-memory stream that holds a header declaring the payload
length `L > 0`, the metadata block and then no more than `L` bytes `tail`: `tail` is
what gets decoded, and the stream is left at its end. -/
theorem Recv_mem_payload (md tail out : List Byte) (ws : List WriteEvent) (L : Nat)
    (hn : md.length < 2 ^ 16) (hL : L < 2 ^ 64) (hpos : 0 < L) (ht : tail.length ≤ L) :
    RecvTransmission ⟨mem (PutUint16 md.length ++ (PutUint64 L ++ (md ++ tail))), out, ws⟩ =
      match DecodeString tail with
      | (_, some e) => .ret (none, some e) ⟨[], out, ws⟩
      | (decoded, none) =>
        .ret (some ⟨L, some ⟨decoded⟩, md.length, trimmed md⟩, none) ⟨[], out, ws⟩ := by
  unfold RecvTransmission
  rw [readSizes_mem md.length L (md ++ tail) out ws hn hL]
  have hp := readPayload_mem (iterations L) tail out ws Buffer.new
    (le_trans ht (iterations_ge L hL))
  have hL0 : L ≠ 0 := by omega
  simp only [Buffer.new, List.nil_append] at hp
  by_cases hmd : md = []
  · subst hmd
    simp only [List.length_nil, gt_iff_lt, lt_self_iff_false, ↓reduceIte, List.nil_append, hL0,
      hp, Buffer.new, Buffer.String, trimmed, Buffer.Write]
  · have hpos : 0 < md.length := List.length_pos.mpr hmd
    have r := Read_mem_append md tail out ws hmd
    simp only [gt_iff_lt, hpos, ↓reduceIte, r, hL0, hp, Buffer.new, Buffer.String, trimmed,
      Buffer.Write]
    rcases DecodeString tail with ⟨d, _ | e⟩ <;> rfl

/-! ## Lemmas: bytes.Trim -/

theorem dropWhile_self_of_head (l : List Byte) (c : Byte) (h : l.head? ≠ some c) :
    l.dropWhile (fun x => x == c) = l := by
  cases l with
  | nil => rfl
  | cons a t =>
    have hac : a ≠ c := by simpa using h
    have hb : (a == c) = false := by simpa using hac
    simp [List.dropWhile, hb]

/-- A non-empty sequence that neither begins nor ends with `c` is what `Trim` returns. -/
theorem Trim_self (s : List Byte) (c : Byte) (hne : s ≠ [])
    (hh : s.head? ≠ some c) (hl : s.getLast? ≠ some c) : Trim s c = some s := by
  have hr : s.reverse.head? ≠ some c := by simpa [List.head?_reverse] using hl
  simp [Trim, hne, trimRightByte, trimLeftByte, dropWhile_self_of_head _ _ hr,
    dropWhile_self_of_head _ _ hh]

theorem trimmed_self (md : List Byte)
    (hh : md.head? ≠ some NULL_BYTE) (hl : md.getLast? ≠ some NULL_BYTE) :
    trimmed md = some md := by
  unfold trimmed
  by_cases hmd : md = []
  · simp [hmd]
  · have hpos : 0 < md.length := List.length_pos.mpr hmd
    simp [hpos, Trim_self md NULL_BYTE hmd hh hl]

/-! ## Lemmas: sending -/

/-- What `SendTransmission` does on a connection that accepts its write. -/
theorem Send_accepting (inp : List ReadEvent) (out : List Byte) (data : Buffer)
    (md : List Byte) (h : md.length ≤ 65535) :
    SendTransmission ⟨inp, out, []⟩ data md =
      ⟨none, ⟨inp, out ++ (PutUint16 (toUint16 md.length) ++
        (PutUint64 (toUint64 (EncodeToString data.Bytes).length) ++
          (md ++ EncodeToString data.Bytes))), []⟩, data⟩ := by
  have h1 : ¬ md.length > SZ_METADATA_MAX := by rw [SZ_METADATA_MAX_eq]; omega
  simp [SendTransmission, h1, Copy, Buffer.WriteTo, Buffer.Write, Buffer.new, Buffer.Len,
    Conn.Write, PutUint16, PutUint64]

theorem bigEndian_two (v : Nat) : bigEndian 2 v = PutUint16 v := by
  simp [bigEndian, PutUint16, Nat.shiftRight_eq_div_pow]

theorem bigEndian_eight (v : Nat) : bigEndian 8 v = PutUint64 v := by
  simp only [bigEndian, PutUint64, Nat.shiftRight_eq_div_pow, List.nil_append, List.cons_append,
    Nat.div_div_eq_div_mul]

theorem PutUint16_toUint16 (v : Nat) : PutUint16 (toUint16 v) = PutUint16 v := by
  simp only [PutUint16, toUint16, Nat.shiftRight_eq_div_pow, List.cons.injEq, and_true]
  constructor <;> apply Fin.ext <;> simp only [byte_val] <;> omega

theorem PutUint64_toUint64 (v : Nat) : PutUint64 (toUint64 v) = PutUint64 v := by
  simp only [PutUint64, toUint64, Nat.shiftRight_eq_div_pow, List.cons.injEq, and_true]
  refine ⟨?_, ?_, ?_, ?_, ?_, ?_, ?_, ?_⟩ <;> apply Fin.ext <;> simp only [byte_val] <;> omega

/-! ## Lemmas: what the base64 decoder accepts -/

set_option maxRecDepth 100000 in
theorem decodeMap_alphabet :
    ∀ c : Byte, decodeMap c ≠ 0xFF →
      isAlphabet c = true ∧ c ≠ charLF ∧ c ≠ charCR ∧ c ≠ padChar := by
  decide

theorem stripCRLF_cons_keep (c : Byte) (rest : List Byte) (h1 : c ≠ charLF) (h2 : c ≠ charCR) :
    stripCRLF (c :: rest) = c :: stripCRLF rest := by
  simp [stripCRLF, h1, h2]

theorem stripCRLF_cons_skip (c : Byte) (rest : List Byte) (h : c = charLF ∨ c = charCR) :
    stripCRLF (c :: rest) = stripCRLF rest := by
  simp [stripCRLF, h]

theorem skipNewlines_strip (src : List Byte) (si : Nat) :
    stripCRLF (skipNewlines src si).1 = stripCRLF src := by
  induction src generalizing si with
  | nil => rfl
  | cons c rest ih =>
    by_cases h : c = charLF ∨ c = charCR
    · simp only [skipNewlines, h, ↓reduceIte, ih, stripCRLF_cons_skip c rest h]
    · simp only [skipNewlines, h, ↓reduceIte]

theorem validStd_cons4 (a b c d : Byte) (t : List Byte) (ha : isAlphabet a = true)
    (hb : isAlphabet b = true) (hc : isAlphabet c = true) (hd : isAlphabet d = true)
    (ht : validStd t = true) : validStd (a :: b :: c :: d :: t) = true := by
  cases t with
  | nil => simp [validStd, ha, hb, hc, hd]
  | cons e t => simp [validStd, ha, hb, hc, hd, ht]

theorem QuantumRead_cons (j : Nat) (c : Byte) (s : List Byte) (q : Quantum)
    (hc : isAlphabet c = true) (hj3 : j < 3) (h : QuantumRead (j + 1) s q) :
    QuantumRead j (c :: s) q := by
  rcases h with ⟨pre, hs, hl, ha⟩ | ⟨_, hj, _⟩ | ⟨hr, hj, pre, hs, hl, ha⟩ | ⟨hr, hj, pre, hs, hl, ha⟩
  · left
    refine ⟨c :: pre, by simp [hs], by simp only [List.length_cons, hl]; omega, ?_⟩
    intro x hx
    rcases List.mem_cons.mp hx with rfl | hx
    · exact hc
    · exact ha x hx
  · omega
  · right; right; left
    refine ⟨hr, by omega, c :: pre, by simp [hs], by simp only [List.length_cons, hl]; omega, ?_⟩
    intro x hx
    rcases List.mem_cons.mp hx with rfl | hx
    · exact hc
    · exact ha x hx
  · right; right; right
    refine ⟨hr, by omega, c :: pre, by simp [hs], by simp only [List.length_cons, hl]; omega, ?_⟩
    intro x hx
    rcases List.mem_cons.mp hx with rfl | hx
    · exact hc
    · exact ha x hx

theorem skipNewlines_nil_strip (src : List Byte) (si : Nat)
    (h : (skipNewlines src si).1 = []) : stripCRLF src = [] := by
  rw [← skipNewlines_strip src si, h]
  rfl

/-- One `decodeQuantum` that reports no error has read what `QuantumRead` says, and
has consumed input unless none was left. -/
theorem decodeQuantumLoop_read (src : List Byte) :
    ∀ (si j : Nat) (dbuf : List Nat) (L : Nat), j ≤ 3 →
      (decodeQuantumLoop src si j dbuf L).err = none →
      QuantumRead j (stripCRLF src) (decodeQuantumLoop src si j dbuf L) ∧
      ((decodeQuantumLoop src si j dbuf L).rest.length < src.length ∨
        (decodeQuantumLoop src si j dbuf L).rest = []) := by
  induction src with
  | nil =>
    intro si j dbuf L _ he
    by_cases hj : j = 0
    · subst hj
      refine ⟨Or.inr (Or.inl ?_), Or.inr ?_⟩ <;> simp [decodeQuantumLoop, stripCRLF]
    · simp [decodeQuantumLoop, hj] at he
  | cons c rest ih =>
    intro si j dbuf L hj he
    by_cases hm : decodeMap c ≠ 0xFF
    · obtain ⟨ha, hlf, hcr, _⟩ := decodeMap_alphabet c hm
      rw [stripCRLF_cons_keep c rest hlf hcr]
      by_cases h3 : j = 3
      · subst h3
        rw [dq_last c rest si dbuf L hm]
        refine ⟨Or.inl ⟨[c], by simp, by simp, ?_⟩, Or.inl (by simp)⟩
        intro x hx
        rw [List.mem_singleton.mp hx]
        exact ha
      · rw [dq_step c rest si j dbuf L hm h3] at he ⊢
        obtain ⟨hq, hl⟩ := ih (si + 1) (j + 1) _ L (by omega) he
        refine ⟨QuantumRead_cons j c _ _ ha (by omega) hq, ?_⟩
        rcases hl with hl | hl
        · left; simp only [List.length_cons]; omega
        · right; exact hl
    · have hm1 : decodeMap c = 0xFF := by simpa using hm
      by_cases hnl : c = charLF ∨ c = charCR
      · have e : decodeQuantumLoop (c :: rest) si j dbuf L =
            decodeQuantumLoop rest (si + 1) j dbuf L := by
          simp [decodeQuantumLoop, hm1, hnl]
        rw [e] at he ⊢
        rw [stripCRLF_cons_skip c rest hnl]
        obtain ⟨hq, hl⟩ := ih (si + 1) j dbuf L hj he
        refine ⟨hq, ?_⟩
        rcases hl with hl | hl
        · left; simp only [List.length_cons]; omega
        · right; exact hl
      · have hlf : c ≠ charLF := fun h => hnl (Or.inl h)
        have hcr : c ≠ charCR := fun h => hnl (Or.inr h)
        rw [stripCRLF_cons_keep c rest hlf hcr]
        by_cases hp : c = padChar
        · subst hp
          have hpm : decodeMap padChar = 255 := decodeMap_padChar
          have hpn : ¬ (padChar = charLF ∨ padChar = charCR) := by decide
          by_cases h01 : j = 0 ∨ j = 1
          · simp [decodeQuantumLoop, hpm, hpn, h01] at he
          · by_cases h2 : j = 2
            · subst h2
              rcases hs1 : skipNewlines rest (si + 1) with ⟨r1, si1⟩
              have hst1 : stripCRLF r1 = stripCRLF rest := by
                have := skipNewlines_strip rest (si + 1)
                rwa [hs1] at this
              cases r1 with
              | nil =>
                simp [decodeQuantumLoop, hpm, hpn, hs1] at he
              | cons c1 rest1 =>
                by_cases hp1 : c1 = padChar
                · subst hp1
                  rcases hs2 : skipNewlines rest1 (si1 + 1) with ⟨r2, si2⟩
                  have hst2 : stripCRLF r2 = stripCRLF rest1 := by
                    have := skipNewlines_strip rest1 (si1 + 1)
                    rwa [hs2] at this
                  have e : decodeQuantumLoop (padChar :: rest) si 2 dbuf L =
                      ⟨r2, si2, quantumBytes dbuf 2,
                        if r2 ≠ [] then some (.corruptInput si2) else none⟩ := by
                    simp [decodeQuantumLoop, hpm, hpn, hs1, hs2]
                  rw [e] at he ⊢
                  have hr2 : r2 = [] := by
                    by_contra hne
                    simp [hne] at he
                  subst hr2
                  have hrest : stripCRLF rest = [padChar] := by
                    rw [← hst1, stripCRLF_cons_keep padChar rest1 hlf hcr, ← hst2]
                    rfl
                  refine ⟨Or.inr (Or.inr (Or.inl ⟨rfl, le_refl _, [], ?_, rfl, ?_⟩)), Or.inr rfl⟩
                  · simp [hrest]
                  · intro x hx; cases hx
                · simp [decodeQuantumLoop, hpm, hpn, hs1, hp1] at he
            · have hj3 : j = 3 := by omega
              subst hj3
              rcases hs2 : skipNewlines rest (si + 1) with ⟨r2, si2⟩
              have hst2 : stripCRLF r2 = stripCRLF rest := by
                have := skipNewlines_strip rest (si + 1)
                rwa [hs2] at this
              have e : decodeQuantumLoop (padChar :: rest) si 3 dbuf L =
                  ⟨r2, si2, quantumBytes dbuf 3,
                    if r2 ≠ [] then some (.corruptInput si2) else none⟩ := by
                simp [decodeQuantumLoop, hpm, hpn, hs2]
              rw [e] at he ⊢
              have hr2 : r2 = [] := by
                by_contra hne
                simp [hne] at he
              subst hr2
              have hrest : stripCRLF rest = [] := by
                rw [← hst2]; rfl
              refine ⟨Or.inr (Or.inr (Or.inr ⟨rfl, le_refl _, [], ?_, rfl, ?_⟩)), Or.inr rfl⟩
              · simp [hrest]
              · intro x hx; cases hx
        · simp [decodeQuantumLoop, hm1, hnl, hp] at he

/-- The loop of `Decode` reports no error only on text that, without its line breaks,
is standard padded base64. -/
theorem decodeLoop_accepts (fuel : Nat) :
    ∀ (src : List Byte) (si L : Nat) (acc : List Byte), src.length ≤ fuel →
      (decodeLoop fuel src si L acc).2 = none → validStd (stripCRLF src) = true := by
  induction fuel with
  | zero =>
    intro src si L acc hf _
    have : src = [] := List.length_eq_zero.mp (by omega)
    subst this
    rfl
  | succ fuel ih =>
    intro src si L acc hf h
    by_cases hsrc : src = []
    · subst hsrc; rfl
    · simp only [decodeLoop, hsrc, ↓reduceIte, decodeQuantum] at h
      by_cases he : (decodeQuantumLoop src si 0 [] L).err = none
      · simp only [he, ne_eq, not_true_eq_false, ↓reduceIte] at h
        obtain ⟨hq, hl⟩ := decodeQuantumLoop_read src si 0 [] L (by omega) he
        have hfuel : (decodeQuantumLoop src si 0 [] L).rest.length ≤ fuel := by
          rcases hl with hl | hl
          · omega
          · rw [hl]; simp
        have hrest := ih _ _ L _ hfuel h
        rcases hq with ⟨pre, hs, hlen, ha⟩ | ⟨_, _, hs⟩ | ⟨_, _, pre, hs, hlen, ha⟩ |
          ⟨_, _, pre, hs, hlen, ha⟩
        · match pre, hlen, ha with
          | [a, b, c, d], _, ha =>
            rw [hs]
            exact validStd_cons4 a b c d _ (ha a (by simp)) (ha b (by simp)) (ha c (by simp))
              (ha d (by simp)) hrest
        · rw [hs]; rfl
        · match pre, hlen, ha with
          | [a, b], _, ha =>
            rw [hs]
            simp [validStd, ha a (by simp), ha b (by simp)]
        · match pre, hlen, ha with
          | [a, b, c], _, ha =>
            rw [hs]
            simp [validStd, ha a (by simp), ha b (by simp), ha c (by simp)]
      · simp only [ne_eq, he, not_false_eq_true, ↓reduceIte] at h

/-- `DecodeString` reports no error only on text that, without its line breaks, is
standard padded base64. -/
theorem DecodeString_accepts (s : List Byte) (h : (DecodeString s).2 = none) :
    validStd (stripCRLF s) = true := by
  unfold DecodeString at h
  split at h
  · rename_i h0
    rw [List.length_eq_zero.mp h0]; rfl
  · exact decodeLoop_accepts s.length s 0 s.length [] (le_refl _) h

set_option maxRecDepth 100000 in
theorem isAlphabet_decodeMap : ∀ c : Byte, isAlphabet c = true → decodeMap c ≠ 0xFF := by
  decide

/-- A group of four characters of the alphabet is one quantum, decoded without error. -/
theorem decodeQuantum_group (a b c d : Byte) (rest : List Byte) (si L : Nat)
    (ha : isAlphabet a = true) (hb : isAlphabet b = true) (hc : isAlphabet c = true)
    (hd : isAlphabet d = true) :
    (decodeQuantum (a :: b :: c :: d :: rest) si L).err = none ∧
    (decodeQuantum (a :: b :: c :: d :: rest) si L).rest = rest := by
  unfold decodeQuantum
  rw [dq_step _ _ _ _ _ _ (isAlphabet_decodeMap a ha) (by decide),
    dq_step _ _ _ _ _ _ (isAlphabet_decodeMap b hb) (by decide),
    dq_step _ _ _ _ _ _ (isAlphabet_decodeMap c hc) (by decide),
    dq_last _ _ _ _ _ (isAlphabet_decodeMap d hd)]
  exact ⟨rfl, rfl⟩

/-- The loop of `Decode` reports no error on standard padded base64 text. -/
theorem decodeLoop_valid (s : List Byte) :
    validStd s = true → ∀ (fuel si L : Nat) (acc : List Byte), s.length ≤ fuel →
      (decodeLoop fuel s si L acc).2 = none := by
  induction s using validStd.induct with
  | case1 =>
    intro _ fuel si L acc _
    cases fuel <;> simp [decodeLoop]
  | case2 a b c d =>
    intro hv fuel si L acc hf
    obtain ⟨fuel, rfl⟩ : ∃ f, fuel = f + 1 := ⟨fuel - 1, by simp at hf; omega⟩
    simp only [validStd, Bool.and_eq_true, Bool.or_eq_true, beq_iff_eq] at hv
    obtain ⟨⟨ha, hb⟩, hcd⟩ := hv
    have hpm : decodeMap padChar = 255 := decodeMap_padChar
    have hpn : ¬ (padChar = charLF ∨ padChar = charCR) := by decide
    rcases hcd with ⟨hc, hd | hd⟩ | ⟨hc, hd⟩
    · obtain ⟨he, hr⟩ := decodeQuantum_group a b c d [] si L ha hb hc hd
      simp only [decodeLoop, he, hr, reduceCtorEq, not_false_eq_true, ne_eq, not_true_eq_false,
        ↓reduceIte]
      cases fuel <;> simp [decodeLoop]
    · subst hd
      have hq : (decodeQuantum [a, b, c, padChar] si L).err = none ∧
          (decodeQuantum [a, b, c, padChar] si L).rest = [] := by
        unfold decodeQuantum
        rw [dq_step _ _ _ _ _ _ (isAlphabet_decodeMap a ha) (by decide),
          dq_step _ _ _ _ _ _ (isAlphabet_decodeMap b hb) (by decide),
          dq_step _ _ _ _ _ _ (isAlphabet_decodeMap c hc) (by decide)]
        simp [decodeQuantumLoop, hpm, hpn, skipNewlines]
      simp only [decodeLoop, hq.1, hq.2, reduceCtorEq, not_false_eq_true, ne_eq,
        not_true_eq_false, ↓reduceIte]
      cases fuel <;> simp [decodeLoop]
    · subst hc hd
      have hq : (decodeQuantum [a, b, padChar, padChar] si L).err = none ∧
          (decodeQuantum [a, b, padChar, padChar] si L).rest = [] := by
        unfold decodeQuantum
        rw [dq_step _ _ _ _ _ _ (isAlphabet_decodeMap a ha) (by decide),
          dq_step _ _ _ _ _ _ (isAlphabet_decodeMap b hb) (by decide)]
        simp [decodeQuantumLoop, hpm, hpn, skipNewlines]
      simp only [decodeLoop, hq.1, hq.2, reduceCtorEq, not_false_eq_true, ne_eq,
        not_true_eq_false, ↓reduceIte]
      cases fuel <;> simp [decodeLoop]
  | case3 a b c d rest hne ih =>
    intro hv fuel si L acc hf
    obtain ⟨fuel, rfl⟩ : ∃ f, fuel = f + 1 := ⟨fuel - 1, by simp at hf; omega⟩
    have hv2 : isAlphabet a = true ∧ isAlphabet b = true ∧ isAlphabet c = true ∧
        isAlphabet d = true ∧ validStd rest = true := by
      cases rest with
      | nil => exact absurd rfl hne
      | cons e t => simpa [validStd, and_assoc] using hv
    obtain ⟨ha, hb, hc, hd, hrest⟩ := hv2
    obtain ⟨he, hr⟩ := decodeQuantum_group a b c d rest si L ha hb hc hd
    simp only [decodeLoop, he, hr, reduceCtorEq, not_false_eq_true, ne_eq, not_true_eq_false,
      ↓reduceIte]
    exact ih hrest fuel _ L _ (by simp at hf; omega)
  | case4 s h1 h2 h3 =>
    intro hv
    exfalso
    unfold validStd at hv
    split at hv
    · exact h1 rfl
    · exact h2 _ _ _ _ rfl
    · exact h3 _ _ _ _ _ rfl
    · exact Bool.false_ne_true hv

/-- `DecodeString` reports no error on standard padded base64 text. -/
theorem DecodeString_valid (s : List Byte) (h : validStd s = true) :
    (DecodeString s).2 = none := by
  unfold DecodeString
  split
  · rfl
  · exact decodeLoop_valid s h s.length 0 s.length [] (le_refl _)

theorem decodeQuantumLoop_err (src : List Byte) :
    ∀ (si j : Nat) (dbuf : List Nat) (L : Nat) (e : Err),
      (decodeQuantumLoop src si j dbuf L).err = some e → ∃ off, e = .corruptInput off := by
  induction src with
  | nil =>
    intro si j dbuf L e h
    by_cases hj : j = 0
    · simp [decodeQuantumLoop, hj] at h
    · simp only [decodeQuantumLoop, hj, ↓reduceIte, Option.some.injEq] at h
      exact ⟨_, h.symm⟩
  | cons c rest ih =>
    intro si j dbuf L e h
    unfold decodeQuantumLoop at h
    split at h
    · split at h
      · simp at h
      · exact ih _ _ _ _ _ h
    · split at h
      · exact ih _ _ _ _ _ h
      · split at h
        · exact ⟨_, (Option.some.inj h).symm⟩
        · split at h
          · exact ⟨_, (Option.some.inj h).symm⟩
          · split at h
            · split at h
              · exact ⟨_, (Option.some.inj h).symm⟩
              · split at h
                · exact ⟨_, (Option.some.inj h).symm⟩
                · simp only at h
                  split at h
                  · exact ⟨_, (Option.some.inj h).symm⟩
                  · simp at h
            · simp only at h
              split at h
              · exact ⟨_, (Option.some.inj h).symm⟩
              · simp at h

theorem decodeLoop_err (fuel : Nat) :
    ∀ (src : List Byte) (si L : Nat) (acc : List Byte) (e : Err),
      (decodeLoop fuel src si L acc).2 = some e → ∃ off, e = .corruptInput off := by
  induction fuel with
  | zero => intro src si L acc e h; simp [decodeLoop] at h
  | succ fuel ih =>
    intro src si L acc e h
    unfold decodeLoop at h
    split at h
    · simp at h
    · simp only at h
      split at h
      · exact decodeQuantumLoop_err _ _ _ _ _ _ h
      · exact ih _ _ _ _ _ h

/-- The only error of `DecodeString` is `CorruptInputError`. -/
theorem DecodeString_err (s : List Byte) (e : Err) (h : (DecodeString s).2 = some e) :
    ∃ off, e = .corruptInput off := by
  unfold DecodeString at h
  split at h
  · simp at h
  · exact decodeLoop_err _ _ _ _ _ _ h

/-! ## Lemmas: the errors of the codec -/

theorem readSizes_err (conn : Conn) (a b : Nat) (e : Err) (c : Conn)
    (h : readSizes conn = .ret (a, b, some e) c) : ∃ ce, e = .conn ce := by
  unfold readSizes at h
  repeat' split at h
  all_goals
    simp only [Run.ret.injEq, Prod.mk.injEq, Option.some.injEq, reduceCtorEq, and_false,
      false_and] at h
  all_goals exact ⟨_, h.1.2.2.symm⟩

/-- The errors of `RecvTransmission` are those of the connection and of the decoder. -/
theorem RecvTransmission_err (conn : Conn) (t : Option TcpTransmission) (e : Err) (c : Conn)
    (h : RecvTransmission conn = .ret (t, some e) c) :
    (∃ ce, e = .conn ce) ∨ ∃ off, e = .corruptInput off := by
  unfold RecvTransmission at h
  split at h
  · simp at h
  · rename_i hs
    simp only [Run.ret.injEq, Prod.mk.injEq, Option.some.injEq] at h
    obtain ⟨⟨_, he⟩, _⟩ := h
    subst he
    exact Or.inl (readSizes_err _ _ _ _ _ hs)
  · simp only at h
    split at h
    · simp at h
    · rename_i hmd
      simp only [Run.ret.injEq, Prod.mk.injEq, Option.some.injEq] at h
      obtain ⟨⟨_, he⟩, _⟩ := h
      subst he
      left
      split at hmd
      · split at hmd
        · simp only [Run.ret.injEq, Prod.mk.injEq, Option.some.injEq] at hmd
          exact ⟨_, hmd.1.2.symm⟩
        · simp at hmd
      · simp at hmd
    · split at h
      · simp at h
      · split at h
        · rename_i hd
          simp only [Run.ret.injEq, Prod.mk.injEq, Option.some.injEq] at h
          obtain ⟨⟨_, he⟩, _⟩ := h
          subst he
          right
          exact DecodeString_err _ _ (by rw [hd])
        · simp at h

/-- The errors of `SendTransmission` are the oversize error and those of the
connection. -/
theorem SendTransmission_err (conn : Conn) (data : Buffer) (md : List Byte) (e : Err)
    (h : (SendTransmission conn data md).err = some e) :
    (∃ a b, e = .mdLarge a b) ∨ ∃ ce, e = .conn ce := by
  unfold SendTransmission at h
  simp only at h
  split at h
  · exact Or.inl ⟨_, _, (Option.some.inj h).symm⟩
  · split at h
    · exact Or.inr ⟨_, (Option.some.inj h).symm⟩
    · simp at h

/-! ## Properties of the codec and of the deadline wrapper -/

/-- C1, as stated, fails: the metadata `[65, 0]` ends in a null byte; sent with an empty
payload over an in-memory stream it is received as `[65]`, not as the original. -/
theorem roundtrip_trailing_null_lost :
    ([65, 0] : List Byte).length ≤ 65535 ∧
    RecvTransmission (SendTransmission (memConn []) ⟨[]⟩ [65, 0]).conn.peer =
      .ret (some ⟨0, some ⟨[]⟩, 2, some [65]⟩, none) (memConn []) ∧
    (some [65] : Option (List Byte)) ≠ some [65, 0] := by
  decide

/-- C1, amended: for every payload and every metadata of at most 65535 bytes that
neither begins nor ends with a null byte, sending the frame to an in-memory stream
and receiving from that stream succeeds with Data equal to the payload, Metadata
equal to the metadata, MdSize its length and DatSize the length of the base64 text
sent; the stream is left empty. (The base64 text is a Go string, so its length is at
most `maxInt`.) -/
theorem roundtrip (data : Buffer) (md : List Byte) (hmd : md.length ≤ 65535)
    (hlen : (EncodeToString data.Bytes).length ≤ maxInt)
    (hh : md.head? ≠ some NULL_BYTE) (hl : md.getLast? ≠ some NULL_BYTE) :
    RecvTransmission (SendTransmission (memConn []) data md).conn.peer =
      .ret (some ⟨(EncodeToString data.Bytes).length, some ⟨data.Bytes⟩, md.length, some md⟩,
        none) (memConn []) := by
  have hL : (EncodeToString data.Bytes).length < 2 ^ 64 := by
    have : maxInt < 2 ^ 64 := by decide
    omega
  have hn : md.length < 2 ^ 16 := by omega
  unfold memConn
  rw [mem_nil, Send_accepting [] [] data md hmd]
  simp only [Conn.peer, memConn, List.nil_append, toUint16, toUint64, Nat.mod_eq_of_lt hL,
    Nat.mod_eq_of_lt hn]
  by_cases h0 : (EncodeToString data.Bytes).length = 0
  · have hnil : EncodeToString data.Bytes = [] := List.length_eq_zero.mp h0
    have hd : data.Bytes = [] := (Encode_eq_nil _).mp hnil
    rw [hnil, List.length_nil, hd]
    have := Recv_mem_zero md [] [] [] hn
    rw [mem_nil] at this
    rw [this, trimmed_self md hh hl]
  · rw [Recv_mem_payload md _ [] [] _ hn hL (by omega) (le_refl _),
      DecodeString_EncodeToString, trimmed_self md hh hl]

/-- The amended C1 at the payload "ABCD" and the metadata `[1, 2]`. -/
theorem roundtrip_witness :
    RecvTransmission (SendTransmission (memConn []) ⟨[65, 66, 67, 68]⟩ [1, 2]).conn.peer =
      .ret (some ⟨(EncodeToString [65, 66, 67, 68]).length, some ⟨[65, 66, 67, 68]⟩, 2,
        some [1, 2]⟩, none) (memConn []) :=
  roundtrip ⟨[65, 66, 67, 68]⟩ [1, 2] (by decide) (by decide) (by decide) (by decide)

/-- C2: for every payload and every metadata of at most 65535 bytes, on a connection
that accepts the write, `SendTransmission` reports no error and appends to the
stream exactly the 2-byte big-endian length of the metadata, the 8-byte big-endian
length of the base64 text, the metadata, and the base64 text of the payload. -/
theorem wire_format (conn : Conn) (data : Buffer) (md : List Byte)
    (hw : conn.wscript = []) (hmd : md.length ≤ 65535) :
    (SendTransmission conn data md).err = none ∧
    (SendTransmission conn data md).conn.output =
      conn.output ++ (bigEndian 2 md.length ++ bigEndian 8 (EncodeToString data.Bytes).length
        ++ md ++ EncodeToString data.Bytes) := by
  obtain ⟨inp, out, ws⟩ := conn
  simp only at hw
  subst hw
  rw [Send_accepting inp out data md hmd, bigEndian_two, bigEndian_eight, PutUint16_toUint16,
    PutUint64_toUint64]
  simp

/-- C2 at the payload "A" and the metadata `[7]`, where the frame is written out. -/
theorem wire_format_witness :
    (SendTransmission (memConn []) ⟨[65]⟩ [7]).err = none ∧
    (SendTransmission (memConn []) ⟨[65]⟩ [7]).conn.output =
      (memConn []).output ++ (bigEndian 2 ([7] : List Byte).length ++
        bigEndian 8 (EncodeToString (Buffer.Bytes ⟨[65]⟩)).length ++ [7] ++
        EncodeToString (Buffer.Bytes ⟨[65]⟩)) :=
  wire_format (memConn []) ⟨[65]⟩ [7] (by decide) (by decide)

/-- C3: `SendTransmission` returns the metadata-too-large error exactly when the
metadata is longer than 65535 bytes; the error carries the attempted length and the
maximum 65535, and the connection is then as it was before the call: nothing was
written. -/
theorem oversized_metadata_rejected (conn : Conn) (data : Buffer) (md : List Byte) :
    ((∃ size max, (SendTransmission conn data md).err = some (.mdLarge size max)) ↔
      65535 < md.length) ∧
    (65535 < md.length →
      SendTransmission conn data md = ⟨some (.mdLarge md.length 65535), conn, data⟩) := by
  have hgt : 65535 < md.length →
      SendTransmission conn data md = ⟨some (.mdLarge md.length 65535), conn, data⟩ := by
    intro h
    have h1 : md.length > SZ_METADATA_MAX := by rw [SZ_METADATA_MAX_eq]; omega
    simp only [SendTransmission, h1, ↓reduceIte]
    rw [SZ_METADATA_MAX_eq]
  refine ⟨⟨?_, fun h => ⟨md.length, 65535, by rw [hgt h]⟩⟩, hgt⟩
  rintro ⟨size, max, he⟩
  by_contra hle
  have h1 : ¬ md.length > SZ_METADATA_MAX := by rw [SZ_METADATA_MAX_eq]; omega
  simp only [SendTransmission, h1, ↓reduceIte] at he
  split at he <;> simp at he

/-- C4 fails on the code: a frame declaring 2 metadata bytes and no payload, whose
metadata block is `[0, 65]` (content not ending in a null byte, no padding), is
received with Metadata `[65]`: the leading null byte is cut as well. -/
theorem leading_null_trimmed :
    RecvTransmission (memConn (bigEndian 2 2 ++ bigEndian 8 0 ++ [0, 65])) =
      .ret (some ⟨0, some ⟨[]⟩, 2, some [65]⟩, none) (memConn []) := by
  decide

/-- C5, as stated, fails: the payload block "QQ==" followed by a line feed is not
standard padded base64 text (the line feed is no character of the alphabet), yet the
frame declaring these 5 bytes is received without error, with the payload "A". -/
theorem line_feed_payload_accepted :
    validStd [81, 81, 61, 61, 10] = false ∧
    RecvTransmission (memConn (bigEndian 2 0 ++ bigEndian 8 5 ++ [] ++ [81, 81, 61, 61, 10])) =
      .ret (some ⟨5, some ⟨[65]⟩, 0, some []⟩, none) (memConn []) := by
  decide

/-- On an in-memory stream that holds just one frame, with a metadata block of at most
65535 bytes and a payload block of the declared length `0 < L < 2 ^ 64` that, once its
carriage returns and line feeds are left out, is not standard padded base64 text,
`RecvTransmission` returns an error and no transmission. -/
theorem malformed_base64_rejected_mem (md block : List Byte) (hmd : md.length ≤ 65535)
    (hpos : 0 < block.length) (hlen : block.length < 2 ^ 64)
    (hbad : validStd (stripCRLF block) = false) :
    ∃ e, RecvTransmission (memConn (bigEndian 2 md.length ++ bigEndian 8 block.length ++
      md ++ block)) = .ret (none, some e) (memConn []) := by
  have hn : md.length < 2 ^ 16 := by omega
  have hr := Recv_mem_payload md block [] [] block.length hn hlen hpos (le_refl _)
  simp only [memConn, bigEndian_two, bigEndian_eight, List.append_assoc, mem_nil]
  rw [hr]
  rcases hd : DecodeString block with ⟨d, _ | e⟩
  · have hv := DecodeString_accepts block (by rw [hd])
    rw [hbad] at hv
    exact absurd hv Bool.false_ne_true
  · exact ⟨e, rfl⟩

/-- The one-character payload block "Q" without metadata, alone on an in-memory stream. -/
theorem malformed_base64_rejected_mem_example :
    ∃ e, RecvTransmission (memConn (bigEndian 2 ([] : List Byte).length ++
      bigEndian 8 ([81] : List Byte).length ++ [] ++ [81])) = .ret (none, some e) (memConn []) :=
  malformed_base64_rejected_mem [] [81] (by decide) (by decide) (by decide) (by decide)

/-- With an empty payload and metadata of at most 65535 bytes, `SendTransmission` (on a
connection that accepts the write) writes the header with payload length 0 and the
metadata, and no payload block; and on an in-memory stream holding a header that
declares payload length 0, the metadata block and any bytes `tail` after it,
`RecvTransmission` succeeds with an empty Data buffer and DatSize 0 and leaves
exactly `tail` unread. -/
theorem zero_payload_path_mem (conn : Conn) (md tail : List Byte) (hw : conn.wscript = [])
    (hmd : md.length ≤ 65535) :
    (SendTransmission conn ⟨[]⟩ md).err = none ∧
    (SendTransmission conn ⟨[]⟩ md).conn.output =
      conn.output ++ (bigEndian 2 md.length ++ bigEndian 8 0 ++ md) ∧
    RecvTransmission (memConn (bigEndian 2 md.length ++ bigEndian 8 0 ++ md ++ tail)) =
      .ret (some ⟨0, some ⟨[]⟩, md.length, trimmed md⟩, none) (memConn tail) := by
  obtain ⟨inp, out, ws⟩ := conn
  simp only at hw
  subst hw
  refine ⟨?_, ?_, ?_⟩
  · rw [Send_accepting inp out _ md hmd]
  · rw [Send_accepting inp out _ md hmd, bigEndian_two, bigEndian_eight, PutUint16_toUint16,
      PutUint64_toUint64]
    simp [EncodeToString, Encode, Buffer.Bytes]
  · have hr := Recv_mem_zero md tail [] [] (by omega)
    simp only [memConn, bigEndian_two, bigEndian_eight, List.append_assoc]
    exact hr

/-- The metadata `[7]`, with the three bytes `[1, 2, 3]` after the frame. -/
theorem zero_payload_path_mem_example :
    (SendTransmission (memConn []) ⟨[]⟩ [7]).err = none ∧
    (SendTransmission (memConn []) ⟨[]⟩ [7]).conn.output =
      (memConn []).output ++ (bigEndian 2 ([7] : List Byte).length ++ bigEndian 8 0 ++ [7]) ∧
    RecvTransmission (memConn (bigEndian 2 ([7] : List Byte).length ++ bigEndian 8 0 ++ [7] ++
      [1, 2, 3])) =
      .ret (some ⟨0, some ⟨[]⟩, ([7] : List Byte).length, trimmed [7]⟩, none)
        (memConn [1, 2, 3]) :=
  zero_payload_path_mem (memConn []) [7] [1, 2, 3] (by decide) (by decide)

/-- C7: with a timeout of 0 or less `RecvTransmissionCtx` returns no transmission and
the error "timeout must be > 0", and `SendTransmissionCtx` returns the same error,
both leaving the connection as it was; with a timeout of at least 1 nanosecond
neither returns that error. -/
theorem nonpositive_timeout (timeout : Int) (done : Option CtxErr) (conn : Conn)
    (data : Buffer) (md : List Byte) :
    Err.timeoutLtOne.text = some "timeout must be > 0" ∧
    (timeout ≤ 0 →
      RecvTransmissionCtx timeout done conn = .ret (none, some .timeoutLtOne) conn ∧
      SendTransmissionCtx timeout done conn data md = ⟨some .timeoutLtOne, conn, data⟩) ∧
    (1 ≤ timeout →
      (∀ t c, RecvTransmissionCtx timeout done conn ≠ .ret (t, some .timeoutLtOne) c) ∧
      (SendTransmissionCtx timeout done conn data md).err ≠ some .timeoutLtOne) := by
  refine ⟨rfl, ?_, ?_⟩
  · intro h
    have h1 : timeout < 1 := by omega
    simp [RecvTransmissionCtx, SendTransmissionCtx, h1]
  · intro h
    have h1 : ¬ timeout < 1 := by omega
    constructor
    · intro t c hr
      simp only [RecvTransmissionCtx, h1, ↓reduceIte] at hr
      split at hr
      · simp at hr
      · simp at hr
      · simp at hr
      · rcases RecvTransmission_err conn t _ c hr with ⟨ce, he⟩ | ⟨off, he⟩ <;> cases he
    · intro hs
      simp only [SendTransmissionCtx, h1, ↓reduceIte] at hs
      split at hs
      · simp at hs
      · simp at hs
      · simp at hs
      · rcases SendTransmission_err conn data md _ hs with ⟨a, b, he⟩ | ⟨ce, he⟩ <;> cases he

/-- C8 fails on the code: the frame of the payload "A" without metadata is received
correctly when it is alone on the stream, but when a second such frame follows it,
the one payload read takes the 4 payload bytes and the whole second frame with
them; decoding fails with `CorruptInputError(4)` and the stream is left empty. -/
theorem following_frame_consumed :
    (SendTransmission (memConn []) ⟨[65]⟩ []).conn.output =
      [0, 0, 0, 0, 0, 0, 0, 0, 0, 4, 81, 81, 61, 61] ∧
    RecvTransmission (memConn [0, 0, 0, 0, 0, 0, 0, 0, 0, 4, 81, 81, 61, 61]) =
      .ret (some ⟨4, some ⟨[65]⟩, 0, some []⟩, none) (memConn []) ∧
    RecvTransmission (memConn ([0, 0, 0, 0, 0, 0, 0, 0, 0, 4, 81, 81, 61, 61] ++
      [0, 0, 0, 0, 0, 0, 0, 0, 0, 4, 81, 81, 61, 61])) =
      .ret (none, some (.corruptInput 4)) (memConn []) := by
  decide

/-- C9 fails on the code: when the first read delivers one byte of the 2-byte
metadata length without an error, or the second read three bytes of the 8-byte
payload length, `RecvTransmission` does not return: it panics in `readSizes`,
indexing past the bytes read. -/
theorem short_header_read_panics :
    RecvTransmission ⟨[⟨[0], none⟩, ⟨[0, 0, 0, 0, 0, 0, 0, 0, 0], none⟩], [], []⟩ =
      .crash ⟨[⟨[0, 0, 0, 0, 0, 0, 0, 0, 0], none⟩], [], []⟩ ∧
    RecvTransmission ⟨[⟨[0, 0], none⟩, ⟨[0, 0, 0], none⟩, ⟨[0, 0, 0, 0, 0], none⟩], [], []⟩ =
      .crash ⟨[⟨[0, 0, 0, 0, 0], none⟩], [], []⟩ := by
  decide

/-- On an in-memory stream holding a header that declares the payload length `L`, the
metadata block, and then only `k < L` payload bytes before its end, with those bytes
standard padded base64 text (`k = 0` included), `RecvTransmission` reports no error:
Data is the decoding of the `k` bytes and DatSize is still `L`. -/
theorem truncated_payload_lenient_mem (md part : List Byte) (L : Nat) (hmd : md.length ≤ 65535)
    (hL : L < 2 ^ 64) (hk : part.length < L) (hvalid : validStd part = true) :
    RecvTransmission (memConn (bigEndian 2 md.length ++ bigEndian 8 L ++ md ++ part)) =
      .ret (some ⟨L, some ⟨(DecodeString part).1⟩, md.length, trimmed md⟩, none)
        (memConn []) := by
  have hn : md.length < 2 ^ 16 := by omega
  have hr := Recv_mem_payload md part [] [] L hn hL (by omega) (le_of_lt hk)
  simp only [memConn, bigEndian_two, bigEndian_eight, List.append_assoc, mem_nil]
  rw [hr]
  have hv := DecodeString_valid part hvalid
  rcases hd : DecodeString part with ⟨d, _ | e⟩
  · rfl
  · rw [hd] at hv
    cases hv

/-- The declared length 8 with only the 4 bytes "QQ==" held by the in-memory stream. -/
theorem truncated_payload_lenient_mem_example :
    RecvTransmission (memConn (bigEndian 2 ([] : List Byte).length ++ bigEndian 8 8 ++ [] ++
      [81, 81, 61, 61])) =
      .ret (some ⟨8, some ⟨(DecodeString [81, 81, 61, 61]).1⟩, ([] : List Byte).length,
        trimmed []⟩, none) (memConn []) :=
  truncated_payload_lenient_mem [] [81, 81, 61, 61] 8 (by decide) (by decide) (by decide)
    (by decide)

/-! ## Lemmas: lengths -/

/-- The base64 text of `n` bytes is `4 * ceil(n / 3)` characters long. -/
theorem Encode_length (p : List Byte) : (Encode p).length = 4 * ceilDiv p.length 3 := by
  induction p using Encode.induct with
  | case1 b0 b1 b2 rest ih =>
    simp only [Encode, List.length_cons, ih, ceilDiv]
    omega
  | case2 b0 b1 => simp [Encode, ceilDiv]
  | case3 b0 => simp [Encode, ceilDiv]
  | case4 => simp [Encode, ceilDiv]

theorem bigEndian_length (w n : Nat) : (bigEndian w n).length = w := by
  induction w generalizing n with
  | zero => rfl
  | succ w ih => simp [bigEndian, ih]

/-- C11: with a timeout of at least 1 nanosecond and the deadline not yet elapsed
when the wrapper looks at `ctx.Done()`, `RecvTransmissionCtx` returns what
`RecvTransmission` returns on the same connection, and `SendTransmissionCtx` returns
what `SendTransmission` returns and leaves the connection as it does. -/
theorem deadline_wrapper_pass_through (timeout : Int) (conn : Conn) (data : Buffer)
    (md : List Byte) (h : 1 ≤ timeout) :
    RecvTransmissionCtx timeout none conn = RecvTransmission conn ∧
    SendTransmissionCtx timeout none conn data md = SendTransmission conn data md := by
  have h1 : ¬ timeout < 1 := by omega
  simp [RecvTransmissionCtx, SendTransmissionCtx, h1]

/-- C11 at the timeout of 1 nanosecond, on the frame of the payload "A". -/
theorem deadline_wrapper_pass_through_witness :
    RecvTransmissionCtx 1 none (memConn [0, 0, 0, 0, 0, 0, 0, 0, 0, 4, 81, 81, 61, 61]) =
      RecvTransmission (memConn [0, 0, 0, 0, 0, 0, 0, 0, 0, 4, 81, 81, 61, 61]) ∧
    SendTransmissionCtx 1 none (memConn [0, 0, 0, 0, 0, 0, 0, 0, 0, 4, 81, 81, 61, 61]) ⟨[65]⟩
        [7] =
      SendTransmission (memConn [0, 0, 0, 0, 0, 0, 0, 0, 0, 4, 81, 81, 61, 61]) ⟨[65]⟩ [7] :=
  deadline_wrapper_pass_through 1 (memConn [0, 0, 0, 0, 0, 0, 0, 0, 0, 4, 81, 81, 61, 61])
    ⟨[65]⟩ [7] (by decide)

/-- C13: for a payload of `n` bytes (a Go slice, so `n ≤ maxInt`) and metadata of at
most 65535 bytes, on a connection that accepts the write, the 8 bytes that
`SendTransmission` writes after the first 2 are the big-endian encoding of
`4 * ceil(n / 3)` and decode to that number, and `10 + len(m) + 4 * ceil(n / 3)`
bytes are written in all. -/
theorem payload_length_field (conn : Conn) (data : Buffer) (md : List Byte)
    (hw : conn.wscript = []) (hmd : md.length ≤ 65535) (hn : data.Bytes.length ≤ maxInt) :
    (((SendTransmission conn data md).conn.output.drop (conn.output.length + 2)).take 8 =
      bigEndian 8 (4 * ceilDiv data.Bytes.length 3)) ∧
    Uint64 (((SendTransmission conn data md).conn.output.drop (conn.output.length + 2)).take 8)
      = some (4 * ceilDiv data.Bytes.length 3) ∧
    (SendTransmission conn data md).conn.output.length =
      conn.output.length + (10 + md.length + 4 * ceilDiv data.Bytes.length 3) := by
  obtain ⟨inp, out, ws⟩ := conn
  simp only at hw
  subst hw
  have hlt : 4 * ceilDiv data.Bytes.length 3 < 2 ^ 64 := by
    have : maxInt = 2 ^ 63 - 1 := rfl
    unfold ceilDiv
    omega
  have hfield : ((SendTransmission ⟨inp, out, []⟩ data md).conn.output.drop
      (out.length + 2)).take 8 = PutUint64 (4 * ceilDiv data.Bytes.length 3) := by
    rw [Send_accepting inp out data md hmd, PutUint64_toUint64, EncodeToString, Encode_length]
    simp [List.drop_append, PutUint16, PutUint64]
  refine ⟨by rw [hfield, bigEndian_eight], ?_, ?_⟩
  · rw [hfield]
    have := Uint64_PutUint64 (4 * ceilDiv data.Bytes.length 3) [] hlt
    rwa [List.append_nil] at this
  · rw [Send_accepting inp out data md hmd]
    simp only [List.length_append, PutUint16_length, PutUint64_length, EncodeToString,
      Encode_length]
    omega

/-- C13 at the 4-byte payload "ABCD" and the metadata `[7]`: the field holds 8 and 19
bytes are written. -/
theorem payload_length_field_witness :
    (((SendTransmission (memConn []) ⟨[65, 66, 67, 68]⟩ [7]).conn.output.drop
      ((memConn []).output.length + 2)).take 8 =
      bigEndian 8 (4 * ceilDiv (Buffer.Bytes ⟨[65, 66, 67, 68]⟩).length 3)) ∧
    Uint64 (((SendTransmission (memConn []) ⟨[65, 66, 67, 68]⟩ [7]).conn.output.drop
      ((memConn []).output.length + 2)).take 8)
      = some (4 * ceilDiv (Buffer.Bytes ⟨[65, 66, 67, 68]⟩).length 3) ∧
    (SendTransmission (memConn []) ⟨[65, 66, 67, 68]⟩ [7]).conn.output.length =
      (memConn []).output.length +
        (10 + ([7] : List Byte).length + 4 * ceilDiv (Buffer.Bytes ⟨[65, 66, 67, 68]⟩).length 3) :=
  payload_length_field (memConn []) ⟨[65, 66, 67, 68]⟩ [7] (by decide) (by decide) (by decide)

/-- C18: whatever `SendTransmission` returns, the caller's data buffer holds the
unread bytes it held before; and on a connection that accepts the writes, sending
the same buffer a second time appends the same frame once more. -/
theorem send_keeps_data (conn : Conn) (data : Buffer) (md : List Byte) :
    (SendTransmission conn data md).data = data ∧
    (SendTransmission conn data md).data.Bytes = data.Bytes ∧
    (conn.wscript = [] → md.length ≤ 65535 →
      ∃ frame, (SendTransmission conn data md).conn.output = conn.output ++ frame ∧
        (SendTransmission (SendTransmission conn data md).conn
          (SendTransmission conn data md).data md).conn.output =
          conn.output ++ frame ++ frame) := by
  have hd : (SendTransmission conn data md).data = data := by
    unfold SendTransmission
    simp only
    split
    · rfl
    · split <;> rfl
  refine ⟨hd, by rw [hd], ?_⟩
  intro hw hmd
  obtain ⟨inp, out, ws⟩ := conn
  simp only at hw
  subst hw
  refine ⟨PutUint16 (toUint16 md.length) ++
    (PutUint64 (toUint64 (EncodeToString data.Bytes).length) ++
      (md ++ EncodeToString data.Bytes)), ?_, ?_⟩
  · rw [Send_accepting inp out data md hmd]
  · rw [hd, Send_accepting inp out data md hmd, Send_accepting inp _ data md hmd]

/-- C14 fails on the code: the frame of the payload "ABCD" (base64 text "QUJDRA==",
declared length 8) arrives with its payload in two deliveries of 4 bytes. The loop
makes its one read, gets "QUJD", and returns the payload "ABC", leaving "RA=="
unread; with the whole frame in one delivery the payload "ABCD" is returned. -/
theorem short_reads_lose_payload :
    RecvTransmission ⟨[⟨[0, 0, 0, 0, 0, 0, 0, 0, 0, 8], none⟩, ⟨[81, 85, 74, 68], none⟩,
        ⟨[82, 65, 61, 61], none⟩], [], []⟩ =
      .ret (some ⟨8, some ⟨[65, 66, 67]⟩, 0, some []⟩, none)
        ⟨[⟨[82, 65, 61, 61], none⟩], [], []⟩ ∧
    RecvTransmission (memConn [0, 0, 0, 0, 0, 0, 0, 0, 0, 8, 81, 85, 74, 68, 82, 65, 61, 61]) =
      .ret (some ⟨8, some ⟨[65, 66, 67, 68]⟩, 0, some []⟩, none) (memConn []) := by
  decide

/-- C15 fails on the code: the frame of the payload "ABCD" arrives complete, but the
first payload read fails with an error that is not end of stream. The error is not
returned, yet the failed read has used up the loop's only turn: the call succeeds
with an empty payload and leaves the 8 payload bytes unread. -/
theorem failed_read_loses_payload :
    RecvTransmission ⟨[⟨[0, 0, 0, 0, 0, 0, 0, 0, 0, 8], none⟩, ⟨[], some (.other 1)⟩,
        ⟨[81, 85, 74, 68, 82, 65, 61, 61], none⟩], [], []⟩ =
      .ret (some ⟨8, some ⟨[]⟩, 0, some []⟩, none)
        ⟨[⟨[81, 85, 74, 68, 82, 65, 61, 61], none⟩], [], []⟩ := by
  decide

/-- C16 fails on the code: a frame declaring 1 metadata byte and no payload, whose
metadata block is the null byte, is received without error with a `nil` Metadata
slice (`bytes.Trim` returns `nil` when it cuts everything). -/
theorem all_null_metadata_is_nil :
    RecvTransmission (memConn [0, 1, 0, 0, 0, 0, 0, 0, 0, 0, 0]) =
      .ret (some ⟨0, some ⟨[]⟩, 1, none⟩, none) (memConn []) := by
  decide

/-! ## Lemmas: the metadata received -/

theorem Read_length_le (c : Conn) (k : Nat) : (c.Read k).1.1.length ≤ k := by
  unfold Conn.Read
  split
  · simp
  · split
    · assumption
    · simp only [List.length_take]; omega

theorem dropWhile_head_ne (l : List Byte) (c : Byte) :
    (l.dropWhile (fun x => x == c)).head? ≠ some c := by
  induction l with
  | nil => simp
  | cons a t ih =>
    by_cases hac : a = c
    · subst hac
      simpa [List.dropWhile] using ih
    · have hb : (a == c) = false := by simpa using hac
      simp [List.dropWhile, hb, hac]

theorem dropWhile_getLast (l : List Byte) (p : Byte → Bool) (h : l.dropWhile p ≠ []) :
    (l.dropWhile p).getLast? = l.getLast? := by
  induction l with
  | nil => rfl
  | cons a t ih =>
    by_cases hp : p a = true
    · have e : (a :: t).dropWhile p = t.dropWhile p := by simp [List.dropWhile, hp]
      rw [e] at h ⊢
      rw [ih h]
      cases t with
      | nil => simp at h
      | cons b u => simp [List.getLast?_cons_cons]
    · have hp' : p a = false := by simpa using hp
      simp [List.dropWhile, hp']

theorem trimRightByte_getLast (s : List Byte) (c : Byte) :
    (trimRightByte s c).getLast? ≠ some c := by
  unfold trimRightByte
  rw [List.getLast?_reverse]
  exact dropWhile_head_ne _ _

theorem trimRightByte_length (s : List Byte) (c : Byte) :
    (trimRightByte s c).length ≤ s.length := by
  unfold trimRightByte
  rw [List.length_reverse]
  have := (List.dropWhile_suffix (fun x => x == c) (l := s.reverse)).length_le
  simpa using this

/-- What `bytes.Trim` leaves is no longer than its input and neither begins nor ends
with the byte cut. -/
theorem Trim_invariant (s : List Byte) (c : Byte) :
    (sliceBytes (Trim s c)).length ≤ s.length ∧
    (sliceBytes (Trim s c)).head? ≠ some c ∧
    (sliceBytes (Trim s c)).getLast? ≠ some c := by
  unfold Trim
  split
  · simp [sliceBytes]
  · unfold trimLeftByte
    simp only
    split
    · simp [sliceBytes]
    · rename_i hne
      simp only [sliceBytes, Option.getD_some]
      refine ⟨?_, dropWhile_head_ne _ _, ?_⟩
      · have h1 := (List.dropWhile_suffix (fun x => x == c)
          (l := trimRightByte s c)).length_le
        have h2 := trimRightByte_length s c
        omega
      · rw [dropWhile_getLast _ _ hne]
        exact trimRightByte_getLast s c

/-- The metadata of a transmission that `RecvTransmission` returns: an empty slice
when the declared length is 0, else `bytes.Trim` of no more bytes than declared. -/
theorem RecvTransmission_metadata (conn : Conn) (t : TcpTransmission) (c : Conn)
    (h : RecvTransmission conn = .ret (some t, none) c) :
    (t.MdSize = 0 ∧ t.Metadata = some []) ∨
    (0 < t.MdSize ∧ ∃ mdBuff : List Byte, mdBuff.length ≤ t.MdSize ∧
      t.Metadata = Trim mdBuff NULL_BYTE) := by
  unfold RecvTransmission at h
  split at h
  · simp at h
  · simp at h
  · rename_i mdSize datSize conn1 _
    simp only at h
    by_cases hpos : mdSize > 0
    · simp only [hpos, ↓reduceIte] at h
      have hlen := Read_length_le conn1 mdSize
      rcases hr : conn1.Read mdSize with ⟨⟨mdBuff, _ | e⟩, conn2⟩
      · rw [hr] at h hlen
        simp only at h hlen
        right
        split at h
        · simp only [Run.ret.injEq, Prod.mk.injEq, Option.some.injEq, and_true] at h
          obtain ⟨ht, _⟩ := h
          subst ht
          exact ⟨hpos, mdBuff, hlen, rfl⟩
        · split at h
          · simp at h
          · simp only [Run.ret.injEq, Prod.mk.injEq, Option.some.injEq, and_true] at h
            obtain ⟨ht, _⟩ := h
            subst ht
            exact ⟨hpos, mdBuff, hlen, rfl⟩
      · rw [hr] at h
        simp at h
    · simp only [hpos, ↓reduceIte] at h
      have h0 : mdSize = 0 := by omega
      left
      split at h
      · simp only [Run.ret.injEq, Prod.mk.injEq, Option.some.injEq, and_true] at h
        obtain ⟨ht, _⟩ := h
        subst ht
        exact ⟨h0, rfl⟩
      · split at h
        · simp at h
        · simp only [Run.ret.injEq, Prod.mk.injEq, Option.some.injEq, and_true] at h
          obtain ⟨ht, _⟩ := h
          subst ht
          exact ⟨h0, rfl⟩

/-- Whenever `RecvTransmission` returns, it returns either no transmission and an
error, or a transmission with a Data buffer and no error. -/
theorem RecvTransmission_shape (conn : Conn) (r : Option TcpTransmission × Option Err)
    (c : Conn) (h : RecvTransmission conn = .ret r c) :
    (r.1 = none ∧ r.2 ≠ none) ∨ (∃ t, r.1 = some t ∧ r.2 = none ∧ t.Data ≠ none) := by
  unfold RecvTransmission at h
  split at h
  · simp at h
  · simp only [Run.ret.injEq] at h
    obtain ⟨hr, _⟩ := h
    subst hr
    left; simp
  · simp only at h
    split at h
    · simp at h
    · simp only [Run.ret.injEq] at h
      obtain ⟨hr, _⟩ := h
      subst hr
      left; simp
    · split at h
      · simp only [Run.ret.injEq] at h
        obtain ⟨hr, _⟩ := h
        subst hr
        right; exact ⟨_, rfl, rfl, by simp⟩
      · split at h
        · simp only [Run.ret.injEq] at h
          obtain ⟨hr, _⟩ := h
          subst hr
          left; simp
        · simp only [Run.ret.injEq] at h
          obtain ⟨hr, _⟩ := h
          subst hr
          right; exact ⟨_, rfl, rfl, by simp⟩

/-- C17: on every connection, a transmission that `RecvTransmission` returns without
error has a Metadata of at most MdSize bytes that neither begins nor ends with a
null byte, and that is empty when MdSize is 0. -/
theorem metadata_invariant (conn : Conn) (t : TcpTransmission) (c : Conn)
    (h : RecvTransmission conn = .ret (some t, none) c) :
    (sliceBytes t.Metadata).length ≤ t.MdSize ∧
    (sliceBytes t.Metadata).head? ≠ some NULL_BYTE ∧
    (sliceBytes t.Metadata).getLast? ≠ some NULL_BYTE ∧
    (t.MdSize = 0 → sliceBytes t.Metadata = []) := by
  rcases RecvTransmission_metadata conn t c h with ⟨h0, hm⟩ | ⟨hpos, mdBuff, hlen, hm⟩
  · rw [hm]
    simp [sliceBytes, h0]
  · rw [hm]
    obtain ⟨h1, h2, h3⟩ := Trim_invariant mdBuff NULL_BYTE
    exact ⟨by omega, h2, h3, by omega⟩

/-- C17 at a frame whose 4-byte metadata block `[0, 65, 0, 0]` is received as `[65]`. -/
theorem metadata_invariant_witness :
    (sliceBytes (TcpTransmission.Metadata ⟨0, some ⟨[]⟩, 4, some [65]⟩)).length ≤
      TcpTransmission.MdSize ⟨0, some ⟨[]⟩, 4, some [65]⟩ ∧
    (sliceBytes (TcpTransmission.Metadata ⟨0, some ⟨[]⟩, 4, some [65]⟩)).head? ≠ some NULL_BYTE ∧
    (sliceBytes (TcpTransmission.Metadata ⟨0, some ⟨[]⟩, 4, some [65]⟩)).getLast? ≠
      some NULL_BYTE ∧
    (TcpTransmission.MdSize ⟨0, some ⟨[]⟩, 4, some [65]⟩ = 0 →
      sliceBytes (TcpTransmission.Metadata ⟨0, some ⟨[]⟩, 4, some [65]⟩) = []) :=
  metadata_invariant (memConn [0, 4, 0, 0, 0, 0, 0, 0, 0, 0, 0, 65, 0, 0])
    ⟨0, some ⟨[]⟩, 4, some [65]⟩ (memConn []) (by decide)

/-! ## Lemmas: the payload loop on every connection -/

theorem iterations_eq (L : Nat) (hL : L < 2 ^ 64) : iterations L = ceilDiv L 2048 := by
  unfold iterations ceilDiv
  rw [SZ_DATABUFF_eq]
  split
  · rw [Nat.mod_eq_of_lt (by omega)]
    omega
  · omega

theorem readPayloadReads_eq (n : Nat) :
    ∀ (conn : Conn) (acc : Buffer), (readPayloadReads n conn acc).2 = readPayload n conn acc := by
  induction n with
  | zero => intro conn acc; rfl
  | succ n ih =>
    intro conn acc
    unfold readPayloadReads readPayload
    rcases conn.Read SZ_DATABUFF with ⟨⟨chunk, _ | e⟩, conn1⟩
    · simp only
      rw [← ih conn1 (acc.Write chunk)]
    · simp only
      split
      · rfl
      · rw [← ih conn1 acc]

theorem readPayloadReads_le (n : Nat) :
    ∀ (conn : Conn) (acc : Buffer), (readPayloadReads n conn acc).1 ≤ n := by
  induction n with
  | zero => intro conn acc; simp [readPayloadReads]
  | succ n ih =>
    intro conn acc
    unfold readPayloadReads
    rcases conn.Read SZ_DATABUFF with ⟨⟨chunk, _ | e⟩, conn1⟩
    · simp only
      have := ih conn1 (acc.Write chunk)
      omega
    · simp only
      split
      · simp
      · have := ih conn1 acc
        simp only
        omega

theorem readPayload_length (n : Nat) :
    ∀ (conn : Conn) (acc : Buffer),
      (readPayload n conn acc).1.unread.length ≤ acc.unread.length + 2048 * n := by
  induction n with
  | zero => intro conn acc; simp [readPayload]
  | succ n ih =>
    intro conn acc
    unfold readPayload
    have hlen := Read_length_le conn SZ_DATABUFF
    rw [SZ_DATABUFF_eq] at hlen
    rcases hr : conn.Read SZ_DATABUFF with ⟨⟨chunk, _ | e⟩, conn1⟩
    · simp only
      rw [SZ_DATABUFF_eq] at hr
      rw [hr] at hlen
      have := ih conn1 (acc.Write chunk)
      simp only [Buffer.Write, List.length_append] at this ⊢
      simp only at hlen
      omega
    · simp only
      split
      · simp only
        omega
      · have := ih conn1 acc
        omega

/-- C19: for a declared payload length `L` from 1 to `2 ^ 64 - 1`, the number of turns
the loop is given is `ceil(L / 2048)`, computed within 64 bits; on every connection
the loop ends after at most that many reads and has then appended at most
`2048 * ceil(L / 2048)` bytes to the payload text. -/
theorem bounded_payload_reading (L : Nat) (conn : Conn) (h1 : 1 ≤ L) (h2 : L < 2 ^ 64) :
    L / SZ_DATABUFF + 1 < 2 ^ 64 ∧
    iterations L = ceilDiv L 2048 ∧
    (readPayloadReads (iterations L) conn Buffer.new).1 ≤ ceilDiv L 2048 ∧
    (readPayloadReads (iterations L) conn Buffer.new).2 =
      readPayload (iterations L) conn Buffer.new ∧
    (readPayload (iterations L) conn Buffer.new).1.unread.length ≤ 2048 * ceilDiv L 2048 := by
  have hi := iterations_eq L h2
  refine ⟨?_, hi, ?_, readPayloadReads_eq _ _ _, ?_⟩
  · rw [SZ_DATABUFF_eq]; omega
  · rw [← hi]; exact readPayloadReads_le _ _ _
  · have := readPayload_length (iterations L) conn Buffer.new
    rw [hi] at this ⊢
    simpa [Buffer.new] using this

/-- C19 at the declared length 5000 on a stream holding 3 bytes. -/
theorem bounded_payload_reading_witness :
    5000 / SZ_DATABUFF + 1 < 2 ^ 64 ∧
    iterations 5000 = ceilDiv 5000 2048 ∧
    (readPayloadReads (iterations 5000) (memConn [81, 81, 61]) Buffer.new).1 ≤
      ceilDiv 5000 2048 ∧
    (readPayloadReads (iterations 5000) (memConn [81, 81, 61]) Buffer.new).2 =
      readPayload (iterations 5000) (memConn [81, 81, 61]) Buffer.new ∧
    (readPayload (iterations 5000) (memConn [81, 81, 61]) Buffer.new).1.unread.length ≤
      2048 * ceilDiv 5000 2048 :=
  bounded_payload_reading 5000 (memConn [81, 81, 61]) (by decide) (by decide)

/-! ## Receiving from any connection -/

/-- What `RecvTransmission` does on any connection once `readSizes` has returned the
two lengths and the metadata read, if there is one, has reported no error: with a
declared payload length of 0 it returns at once; otherwise it runs the payload loop
and decodes the text the loop has accumulated. -/
theorem RecvTransmission_steps (conn conn1 : Conn) (n L : Nat)
    (hs : readSizes conn = .ret (n, L, none) conn1)
    (hmd : 0 < n → (conn1.Read n).1.2 = none) :
    RecvTransmission conn =
      if L = 0 then
        .ret (some ⟨0, some ⟨[]⟩, n, readMetadata conn1 n⟩, none) (afterMetadata conn1 n)
      else
        match DecodeString
          (readPayload (iterations L) (afterMetadata conn1 n) Buffer.new).1.String with
        | (_, some e) =>
          .ret (none, some e) (readPayload (iterations L) (afterMetadata conn1 n) Buffer.new).2
        | (decoded, none) =>
          .ret (some ⟨L, some ⟨decoded⟩, n, readMetadata conn1 n⟩, none)
            (readPayload (iterations L) (afterMetadata conn1 n) Buffer.new).2 := by
  unfold RecvTransmission
  rw [hs]
  by_cases hpos : n > 0
  · have he := hmd hpos
    rcases hr : conn1.Read n with ⟨⟨b, e⟩, c2⟩
    rw [hr] at he
    simp only at he
    subst he
    by_cases hL : L = 0
    · subst hL
      simp [hpos, hr, afterMetadata, readMetadata, Buffer.new]
    · simp only [gt_iff_lt, hpos, ↓reduceIte, hr, hL, afterMetadata, readMetadata, Buffer.new,
        Buffer.Write, List.nil_append]
  · by_cases hL : L = 0
    · subst hL
      simp [hpos, afterMetadata, readMetadata, Buffer.new]
    · simp only [hpos, ↓reduceIte, hL, afterMetadata, readMetadata, Buffer.new,
        Buffer.Write, List.nil_append]

/-- C5, amended: on every connection on which `readSizes` returns the two lengths, the
declared payload length is positive and the metadata read reports no error, if the
payload text that the payload loop accumulates is, once its carriage returns and
line feeds are left out, not standard padded base64 text, then `RecvTransmission`
returns an error and no transmission. -/
theorem malformed_base64_rejected (conn conn1 : Conn) (n L : Nat)
    (hs : readSizes conn = .ret (n, L, none) conn1)
    (hmd : 0 < n → (conn1.Read n).1.2 = none)
    (hL : 0 < L)
    (hbad : validStd (stripCRLF
      (readPayload (iterations L) (afterMetadata conn1 n) Buffer.new).1.String) = false) :
    ∃ e, RecvTransmission conn =
      .ret (none, some e) (readPayload (iterations L) (afterMetadata conn1 n) Buffer.new).2 := by
  rw [RecvTransmission_steps conn conn1 n L hs hmd]
  have hL0 : L ≠ 0 := by omega
  simp only [hL0, ↓reduceIte]
  rcases hd : DecodeString
    (readPayload (iterations L) (afterMetadata conn1 n) Buffer.new).1.String with ⟨d, _ | e⟩
  · have hv := DecodeString_accepts _ (by rw [hd])
    rw [hbad] at hv
    exact absurd hv Bool.false_ne_true
  · exact ⟨e, rfl⟩

/-- The amended C5 on a connection that delivers the header (no metadata, payload
length 5) and then the payload block "QUJD!" in two deliveries, "QUJ" and "D!". -/
theorem malformed_base64_rejected_witness :
    ∃ e, RecvTransmission ⟨[⟨[0, 0, 0, 0, 0, 0, 0, 0, 0, 5], none⟩, ⟨[81, 85, 74], none⟩,
        ⟨[68, 33], none⟩], [], []⟩ =
      .ret (none, some e) (readPayload (iterations 5)
        (afterMetadata ⟨[⟨[81, 85, 74], none⟩, ⟨[68, 33], none⟩], [], []⟩ 0) Buffer.new).2 :=
  malformed_base64_rejected
    ⟨[⟨[0, 0, 0, 0, 0, 0, 0, 0, 0, 5], none⟩, ⟨[81, 85, 74], none⟩, ⟨[68, 33], none⟩], [], []⟩
    ⟨[⟨[81, 85, 74], none⟩, ⟨[68, 33], none⟩], [], []⟩ 0 5 (by decide) (by decide) (by decide)
    (by decide)

/-- C6, as stated, fails: the stream holds a header that declares 2 metadata bytes and
payload length 0, and ends there. `readSizes` returns the two lengths, the metadata
read reports end of stream, and `RecvTransmission` returns that error and no
transmission. -/
theorem zero_payload_metadata_missing :
    readSizes (memConn [0, 2, 0, 0, 0, 0, 0, 0, 0, 0]) = .ret (2, 0, none) (memConn []) ∧
    RecvTransmission (memConn [0, 2, 0, 0, 0, 0, 0, 0, 0, 0]) =
      .ret (none, some (.conn .eof)) (memConn []) := by
  decide

/-- C6, amended: with an empty payload and metadata of at most 65535 bytes,
`SendTransmission` (on a connection that accepts the write) writes the header with
payload length 0 and the metadata, and no payload block; and on every connection on
which `readSizes` returns the two lengths with payload length 0 and the metadata
read, if there is one, reports no error, `RecvTransmission` succeeds with an empty
Data buffer and DatSize 0 and leaves the connection as the metadata step left it: no
payload read is made. On an in-memory stream holding the header, the metadata block
and any bytes `tail`, exactly `tail` is left unread. -/
theorem zero_payload_path (connW : Conn) (md tail : List Byte) (conn conn1 : Conn) (n : Nat)
    (hw : connW.wscript = []) (hlen : md.length ≤ 65535)
    (hs : readSizes conn = .ret (n, 0, none) conn1)
    (hmd : 0 < n → (conn1.Read n).1.2 = none) :
    (SendTransmission connW ⟨[]⟩ md).err = none ∧
    (SendTransmission connW ⟨[]⟩ md).conn.output =
      connW.output ++ (bigEndian 2 md.length ++ bigEndian 8 0 ++ md) ∧
    RecvTransmission conn =
      .ret (some ⟨0, some ⟨[]⟩, n, readMetadata conn1 n⟩, none) (afterMetadata conn1 n) ∧
    RecvTransmission (memConn (bigEndian 2 md.length ++ bigEndian 8 0 ++ md ++ tail)) =
      .ret (some ⟨0, some ⟨[]⟩, md.length, trimmed md⟩, none) (memConn tail) := by
  obtain ⟨inp, out, ws⟩ := connW
  simp only at hw
  subst hw
  refine ⟨?_, ?_, ?_, ?_⟩
  · rw [Send_accepting inp out _ md hlen]
  · rw [Send_accepting inp out _ md hlen, bigEndian_two, bigEndian_eight, PutUint16_toUint16,
      PutUint64_toUint64]
    simp [EncodeToString, Encode, Buffer.Bytes]
  · rw [RecvTransmission_steps conn conn1 n 0 hs hmd]
    simp
  · have hr := Recv_mem_zero md tail [] [] (by omega)
    simp only [memConn, bigEndian_two, bigEndian_eight, List.append_assoc]
    exact hr

/-- The amended C6 at the metadata `[7]` for the send, and for the receive on a
connection that delivers the header (2 metadata bytes, payload length 0), the
metadata "AB" and three more bytes in separate deliveries. -/
theorem zero_payload_path_witness :
    (SendTransmission (memConn []) ⟨[]⟩ [7]).err = none ∧
    (SendTransmission (memConn []) ⟨[]⟩ [7]).conn.output =
      (memConn []).output ++ (bigEndian 2 ([7] : List Byte).length ++ bigEndian 8 0 ++ [7]) ∧
    RecvTransmission ⟨[⟨[0, 2, 0, 0, 0, 0, 0, 0, 0, 0], none⟩, ⟨[65, 66], none⟩,
        ⟨[1, 2, 3], none⟩], [], []⟩ =
      .ret (some ⟨0, some ⟨[]⟩, 2,
        readMetadata ⟨[⟨[65, 66], none⟩, ⟨[1, 2, 3], none⟩], [], []⟩ 2⟩, none)
        (afterMetadata ⟨[⟨[65, 66], none⟩, ⟨[1, 2, 3], none⟩], [], []⟩ 2) ∧
    RecvTransmission (memConn (bigEndian 2 ([7] : List Byte).length ++ bigEndian 8 0 ++ [7] ++
      [1, 2, 3])) =
      .ret (some ⟨0, some ⟨[]⟩, ([7] : List Byte).length, trimmed [7]⟩, none)
        (memConn [1, 2, 3]) :=
  zero_payload_path (memConn []) [7] [1, 2, 3]
    ⟨[⟨[0, 2, 0, 0, 0, 0, 0, 0, 0, 0], none⟩, ⟨[65, 66], none⟩, ⟨[1, 2, 3], none⟩], [], []⟩
    ⟨[⟨[65, 66], none⟩, ⟨[1, 2, 3], none⟩], [], []⟩ 2 (by decide) (by decide) (by decide)
    (by decide)

/-- C10 fails on the code: the header declares the payload length 8, the stream delivers
only the 4 payload bytes "QQ==" (valid base64 text of "A"), as "QQ" and "==" in two
deliveries, and then ends. The loop makes its one read, gets "QQ", and decoding
fails with `CorruptInputError(0)`: no transmission is returned. With the same 4
bytes in one delivery the payload "A" is returned with DatSize 8. -/
theorem truncated_payload_segmented :
    validStd [81, 81, 61, 61] = true ∧
    RecvTransmission ⟨[⟨[0, 0, 0, 0, 0, 0, 0, 0, 0, 8], none⟩, ⟨[81, 81], none⟩,
        ⟨[61, 61], none⟩], [], []⟩ =
      .ret (none, some (.corruptInput 0)) ⟨[⟨[61, 61], none⟩], [], []⟩ ∧
    RecvTransmission ⟨[⟨[0, 0, 0, 0, 0, 0, 0, 0, 0, 8], none⟩, ⟨[81, 81, 61, 61], none⟩],
        [], []⟩ =
      .ret (some ⟨8, some ⟨[65]⟩, 0, some []⟩, none) ⟨[], [], []⟩ := by
  decide

end Comms
